import Mathlib

/-!
Verification of the pixel-plex-graph library (`src/graph-lib/src/lib.rs`,
`src/graph-lib/src/utils.rs`, `src/graph-lib/src/errors.rs`).

The Rust code is shallowly embedded: the `HashMap<u32, Vertex>` becomes a
`List (Vertex VT ET)` keyed by the `id` field (ids are unique in every graph
the API can build; set-valued claims do not depend on iteration order), the
`u32` ids become `Nat`, `Rc<Option<ET>>` becomes `Option ET` (sharing is a
memory optimisation; payload equality is what the spec talks about), and the
in-place mutating methods become state-passing functions.  A fallible
mutating method returns `Except GraphError Unit × Graph`, keeping the state
it leaves behind even on error, because `add_edge` can really mutate and
then fail.
-/

namespace GraphLib

/-- Error taxonomy of `errors.rs` (the `io::Error` wrapper `SerializeGraph`
is not modelled: the embedding works on in-memory line lists, where the
stream cannot fail). -/
inductive GraphError where
  | VertexAlreadyExist (id : Nat)
  | VertexNotFound (id : Nat)
  | ParseVertexId (line : String)
  | WrongVertexIdType (line : String)
deriving DecidableEq, Repr

/-- `GraphType` from `lib.rs`. -/
inductive GraphType where
  | Directed
  | Undirected
deriving DecidableEq, Repr

/-- `EdgeDirectionType` from `lib.rs`: `Strong` is a real edge, `Weak` the
mirror half created for undirected graphs. -/
inductive EdgeDirectionType where
  | Strong
  | Weak
deriving DecidableEq, Repr

/-- `EdgeDirection<ET>` from `lib.rs`. -/
structure EdgeDirection (ET : Type) where
  to_vertex_id : Nat
  value : Option ET
  type : EdgeDirectionType
deriving DecidableEq, Repr

/-- `PartialEq for EdgeDirection`: equality compares only the target id
(payload and kind are ignored). -/
def EdgeDirection.eqByTarget {ET : Type} (a b : EdgeDirection ET) : Bool :=
  a.to_vertex_id == b.to_vertex_id

/-- `Vertex<VT, ET>` from `lib.rs`. -/
structure Vertex (VT ET : Type) where
  id : Nat
  value : Option VT
  edge_directions : List (EdgeDirection ET)
deriving DecidableEq, Repr

/-- `Vertex::new`: the only public constructor, always an empty edge list. -/
def Vertex.new {VT ET : Type} (id : Nat) (value : Option VT) : Vertex VT ET :=
  { id := id, value := value, edge_directions := [] }

/-- `Graph<VT, ET>` from `lib.rs`; the `HashMap` is a list of vertices keyed
by their `id` field. -/
structure Graph (VT ET : Type) where
  vertices : List (Vertex VT ET)
  type : GraphType
deriving DecidableEq, Repr

/-- `Graph::new`. -/
def Graph.new (VT ET : Type) (t : GraphType) : Graph VT ET :=
  { vertices := [], type := t }

/-- `utils::remove_from_vec`: remove the FIRST element matching the
comparator, if any. -/
def remove_from_vec {T : Type} (data : List T) (value_comparator : T → Bool) : List T :=
  match data with
  | [] => []
  | x :: xs => if value_comparator x then xs else x :: remove_from_vec xs value_comparator

variable {VT ET : Type}

/-- `self.vertices.get(&id)` of the `HashMap`: first (unique) vertex whose
`id` field matches. -/
def Graph.findVertex (g : Graph VT ET) (id : Nat) : Option (Vertex VT ET) :=
  g.vertices.find? (fun v => v.id == id)

/-- `Graph::contains_vertex` (`self.vertices.contains_key`). -/
def Graph.contains_vertex (g : Graph VT ET) (vertex_id : Nat) : Bool :=
  g.vertices.any (fun v => v.id == vertex_id)

/-- `self.vertices.get_mut(&id)` followed by an update: rewrite the first
(unique) vertex with the given id through `f`. -/
def modifyFirst (l : List (Vertex VT ET)) (id : Nat) (f : Vertex VT ET → Vertex VT ET) :
    List (Vertex VT ET) :=
  match l with
  | [] => []
  | v :: vs => if v.id == id then f v :: vs else v :: modifyFirst vs id f

/-- Update of the vertex stored under `id` (no-op when absent, like a failed
`get_mut`). -/
def Graph.modifyVertex (g : Graph VT ET) (id : Nat) (f : Vertex VT ET → Vertex VT ET) :
    Graph VT ET :=
  { g with vertices := modifyFirst g.vertices id f }

/-- `Graph::add_vertex`: fails (state unchanged) when the id is taken,
otherwise inserts. -/
def Graph.add_vertex (g : Graph VT ET) (vertex : Vertex VT ET) :
    Except GraphError Unit × Graph VT ET :=
  if g.contains_vertex vertex.id then
    (.error (.VertexAlreadyExist vertex.id), g)
  else
    (.ok (), { g with vertices := g.vertices ++ [vertex] })

/-- `Graph::delete_vertex`: drop the vertex, then scrub every remaining
vertex's edge list with `remove_from_vec` (first match only). -/
def Graph.delete_vertex (g : Graph VT ET) (vertex_id : Nat) : Graph VT ET :=
  let remaining := g.vertices.filter (fun v => v.id != vertex_id)
  { g with
    vertices := remaining.map (fun v =>
      { v with edge_directions :=
          remove_from_vec v.edge_directions (fun e => e.to_vertex_id == vertex_id) }) }

/-- `Graph::add_edge_direction`: error when `from_id` is absent; silent
no-op when an edge direction with the same target is already present
(target-only equality); otherwise push the new direction. -/
def Graph.add_edge_direction (g : Graph VT ET) (from_id to_id : Nat) (value : Option ET)
    (edge_direction_type : EdgeDirectionType) : Except GraphError Unit × Graph VT ET :=
  match g.findVertex from_id with
  | none => (.error (.VertexNotFound from_id), g)
  | some vertex_from =>
    let edge_to : EdgeDirection ET :=
      { to_vertex_id := to_id, value := value, type := edge_direction_type }
    if vertex_from.edge_directions.any (fun e => e.eqByTarget edge_to) then
      (.ok (), g)
    else
      (.ok (), g.modifyVertex from_id (fun v =>
        { v with edge_directions := v.edge_directions ++ [edge_to] }))

/-- `Graph::add_edge`: undirected mode inserts the `Strong` half into
`from_id`'s list and then the `Weak` mirror into `to_id`'s list (the state
after a failing second insertion keeps the first); directed mode checks
`to_id` upfront and inserts a single `Strong` direction. -/
def Graph.add_edge (g : Graph VT ET) (from_id to_id : Nat) (value : Option ET) :
    Except GraphError Unit × Graph VT ET :=
  match g.type with
  | .Undirected =>
    match g.add_edge_direction from_id to_id value .Strong with
    | (.error e, g1) => (.error e, g1)
    | (.ok _, g1) => g1.add_edge_direction to_id from_id value .Weak
  | .Directed =>
    if !(g.contains_vertex to_id) then
      (.error (.VertexNotFound to_id), g)
    else
      g.add_edge_direction from_id to_id value .Strong

/-- `Graph::delete_edge_direction`: remove the first direction with the
given target from `from_id`'s list (no-op when the vertex is absent). -/
def Graph.delete_edge_direction (g : Graph VT ET) (from_id to_id : Nat) : Graph VT ET :=
  g.modifyVertex from_id (fun v =>
    { v with edge_directions :=
        remove_from_vec v.edge_directions (fun e => e.to_vertex_id == to_id) })

/-- `Graph::delete_edge`: undirected mode removes both halves, directed mode
one; never errors. -/
def Graph.delete_edge (g : Graph VT ET) (from_id to_id : Nat) : Graph VT ET :=
  match g.type with
  | .Undirected => (g.delete_edge_direction from_id to_id).delete_edge_direction to_id from_id
  | .Directed => g.delete_edge_direction from_id to_id

/-- Number of graph vertices whose id has not been visited yet; the
termination measure of the bfs loop. -/
def Graph.unvisitedCount (g : Graph VT ET) (visited : List Nat) : Nat :=
  ((g.vertices.map Vertex.id).toFinset \ visited.toFinset).card

/-- Visiting a live unvisited vertex strictly decreases `unvisitedCount`. -/
theorem unvisitedCount_cons_lt (g : Graph VT ET) (visited : List Nat) (i : Nat)
    (hmem : i ∈ g.vertices.map Vertex.id) (hvis : i ∉ visited) :
    g.unvisitedCount (i :: visited) < g.unvisitedCount visited := by
  unfold Graph.unvisitedCount
  have hmem' : i ∈ (g.vertices.map Vertex.id).toFinset \ visited.toFinset := by
    rw [Finset.mem_sdiff]
    exact ⟨List.mem_toFinset.mpr hmem, fun h => hvis (List.mem_toFinset.mp h)⟩
  rw [List.toFinset_cons]
  have hset : (g.vertices.map Vertex.id).toFinset \ insert i visited.toFinset
      = ((g.vertices.map Vertex.id).toFinset \ visited.toFinset).erase i := by
    ext x
    simp only [Finset.mem_sdiff, Finset.mem_erase, Finset.mem_insert]
    tauto
  rw [hset]
  exact Finset.card_erase_lt_of_mem hmem'

/-- `Graph::bfs`'s loop (`while !queue_vertex.is_empty()`): the queue holds
vertex ids (the Rust queue holds resolved references into the immutable
graph, which re-resolve to the same vertex), `visited` is the visited-id
set, and the returned list collects the emitted
`(id, value, neighbour_ids)` records in visitation order. -/
def Graph.bfsLoop (g : Graph VT ET) (queue : List Nat) (visited : List Nat) :
    List (Nat × Option VT × List Nat) :=
  match queue with
  | [] => []
  | id :: rest =>
    match h : g.findVertex id with
    | none => g.bfsLoop rest visited
    | some current_vertex =>
      if hv : visited.contains id then g.bfsLoop rest visited
      else
        (id, current_vertex.value,
          (current_vertex.edge_directions.filterMap
            (fun e => g.findVertex e.to_vertex_id)).map Vertex.id)
        :: g.bfsLoop
          (rest ++ ((current_vertex.edge_directions.filterMap
              (fun e => g.findVertex e.to_vertex_id)).filter
            (fun w => !((id :: visited).contains w.id))).map Vertex.id)
          (id :: visited)
termination_by (g.unvisitedCount visited, queue.length)
decreasing_by
  · exact Prod.Lex.right _ (Nat.lt_succ_self _)
  · exact Prod.Lex.right _ (Nat.lt_succ_self _)
  · apply Prod.Lex.left
    apply unvisitedCount_cons_lt
    · have hpred := List.find?_some h
      have hmem := List.mem_of_find?_eq_some h
      have : current_vertex.id = id := by simpa using hpred
      subst this
      exact List.mem_map_of_mem Vertex.id hmem
    · simpa using hv

/-- `Graph::bfs`: error when the start vertex is absent, otherwise run the
queue loop seeded with the start vertex. -/
def Graph.bfs (g : Graph VT ET) (start_id : Nat) :
    Except GraphError (List (Nat × Option VT × List Nat)) :=
  match g.findVertex start_id with
  | none => .error (.VertexNotFound start_id)
  | some _ => .ok (g.bfsLoop [start_id] [])

/-! Text format codec (`impl Graph<String, String>`).  A text line is
embedded as its list of characters, and the codec's graphs carry
`List Char` payloads (the Rust `String` values).  `line.split(" ")` is
embedded as `splitSp`, which returns the first fragment and the list of
later fragments: Rust's `split` always yields at least one item, and the
pair shape makes that fact structural. -/

/-- Rust `line.split(" ")`: fragments between single-space separators,
empty fragments kept, as (first fragment, remaining fragments). -/
def splitSp (l : List Char) : List Char × List (List Char) :=
  match l with
  | [] => ([], [])
  | c :: cs =>
    let r := splitSp cs
    if c = ' ' then ([], r.1 :: r.2) else (c :: r.1, r.2)

/-- Token list of a line: Rust's `split(" ")` iterator contents. -/
def tokens (l : List Char) : List (List Char) :=
  (splitSp l).1 :: (splitSp l).2

/-- Rust `Vec::join(" ")` over fragments. -/
def joinSp (ts : List (List Char)) : List Char :=
  match ts with
  | [] => []
  | [t] => t
  | t :: ts => t ++ ' ' :: joinSp ts

/-- Rust `str::trim` on the character list (both ends, whitespace). -/
def trimChars (l : List Char) : List Char :=
  ((l.dropWhile Char.isWhitespace).reverse.dropWhile Char.isWhitespace).reverse

/-- Rust `str::parse::<u32>`: an optional leading `+`, then one or more
ASCII digits, value within `u32` range. -/
def parseU32 (s : List Char) : Option Nat :=
  let s2 := match s with
    | '+' :: rest => rest
    | _ => s
  if s2.isEmpty then none
  else if s2.all Char.isDigit then
    let n := s2.foldl (fun acc c => acc * 10 + (c.toNat - 48)) 0
    if n < 4294967296 then some n else none
  else none

/-- Decimal character representation of an id (`u32`'s `Display`). -/
def natChars (n : Nat) : List Char :=
  Nat.toDigits 10 n

/-- `Graph::parse_vertex`: first token parsed as the id (`ok_or` on the
iterator's first `next()`; the `[]` arm embeds its `None` case, which the
nonempty `tokens` makes unreachable), remaining tokens rejoined with single
spaces as the optional value. -/
def parse_vertex (line : List Char) : Except GraphError (Vertex (List Char) (List Char)) :=
  match tokens line with
  | [] => .error (.ParseVertexId (String.mk line))
  | tok :: rest =>
    match parseU32 tok with
    | none => .error (.WrongVertexIdType (String.mk line))
    | some vertex_id =>
      let vertex_value := joinSp rest
      .ok (Vertex.new vertex_id (if vertex_value.isEmpty then none else some vertex_value))

/-- `Graph::is_delimiter`. -/
def is_delimiter (line : List Char) : Bool :=
  line == ['#']

/-- `Graph::parse_edge`: two leading integer tokens, the rest rejoined as
the optional edge value, then both endpoints checked for membership. -/
def parse_edge (line : List Char) (graph : Graph (List Char) (List Char)) :
    Except GraphError (Nat × Nat × Option (List Char)) :=
  match tokens line with
  | [] => .error (.ParseVertexId (String.mk line))
  | tok1 :: rest1 =>
    match parseU32 tok1 with
    | none => .error (.WrongVertexIdType (String.mk line))
    | some first_vertex_id =>
      match rest1 with
      | [] => .error (.ParseVertexId (String.mk line))
      | tok2 :: rest2 =>
        match parseU32 tok2 with
        | none => .error (.WrongVertexIdType (String.mk line))
        | some second_vertex_id =>
          let ev := joinSp rest2
          let edge_value := if ev.isEmpty then none else some ev
          if !(graph.contains_vertex first_vertex_id) then
            .error (.VertexNotFound first_vertex_id)
          else if !(graph.contains_vertex second_vertex_id) then
            .error (.VertexNotFound second_vertex_id)
          else
            .ok (first_vertex_id, second_vertex_id, edge_value)

/-- `ScanState` from `lib.rs`. -/
inductive ScanState where
  | Vertex
  | Edge
deriving DecidableEq, Repr

/-- Loop body of `Graph::deserialize` over the document's lines (the Rust
`reader.lines()` iteration, each line trimmed). -/
def deserializeLoop (graph : Graph (List Char) (List Char)) (scan_state : ScanState)
    (lines : List (List Char)) : Except GraphError (Graph (List Char) (List Char)) :=
  match lines with
  | [] => .ok graph
  | rawLine :: rest =>
    let line := trimChars rawLine
    match scan_state with
    | .Vertex =>
      match parse_vertex line with
      | .ok vertex =>
        match graph.add_vertex vertex with
        | (.ok _, graph2) => deserializeLoop graph2 .Vertex rest
        | (.error e, _) => .error e
      | .error err =>
        if is_delimiter line then deserializeLoop graph .Edge rest
        else .error err
    | .Edge =>
      match parse_edge line graph with
      | .error e => .error e
      | .ok (to_id, from_id, value) =>
        match graph.add_edge to_id from_id value with
        | (.ok _, graph2) => deserializeLoop graph2 .Edge rest
        | (.error e, _) => .error e

/-- `Graph::deserialize`: always builds an undirected graph, starting in
vertex-scanning state. -/
def deserialize (lines : List (List Char)) : Except GraphError (Graph (List Char) (List Char)) :=
  deserializeLoop (Graph.new (List Char) (List Char) .Undirected) .Vertex lines

/-- Line written by `Graph::serialize` for one vertex. -/
def vertexLine (v : Vertex (List Char) (List Char)) : List Char :=
  match v.value with
  | some vertex_value => natChars v.id ++ ' ' :: vertex_value
  | none => natChars v.id

/-- Lines written by `Graph::serialize` for one vertex's `Strong` edge
directions (`Weak` mirrors are skipped). -/
def edgeLines (v : Vertex (List Char) (List Char)) : List (List Char) :=
  v.edge_directions.filterMap (fun e =>
    match e.type with
    | .Weak => none
    | .Strong =>
      match e.value with
      | some edge_value =>
        some (natChars v.id ++ ' ' :: (natChars e.to_vertex_id ++ ' ' :: edge_value))
      | none => some (natChars v.id ++ ' ' :: natChars e.to_vertex_id))

/-- `Graph::serialize` as the list of lines it writes: one line per vertex,
the `#` delimiter, then one line per `Strong` edge direction. -/
def Graph.serialize (g : Graph (List Char) (List Char)) : List (List Char) :=
  (g.vertices.map vertexLine) ++ [['#']] ++ (g.vertices.flatMap edgeLines)

/-! Basic lemmas about lookup and first-match modification. -/

theorem findVertex_id (g : Graph VT ET) (i : Nat) (v : Vertex VT ET)
    (h : g.findVertex i = some v) : v.id = i := by
  have := List.find?_some h
  simpa using this

theorem findVertex_mem (g : Graph VT ET) (i : Nat) (v : Vertex VT ET)
    (h : g.findVertex i = some v) : v ∈ g.vertices :=
  List.mem_of_find?_eq_some h

theorem contains_vertex_true_iff (g : Graph VT ET) (i : Nat) :
    g.contains_vertex i = true ↔ ∃ v ∈ g.vertices, v.id = i := by
  simp [Graph.contains_vertex, List.any_eq_true]

theorem contains_vertex_false_iff (g : Graph VT ET) (i : Nat) :
    g.contains_vertex i = false ↔ ∀ v ∈ g.vertices, v.id ≠ i := by
  simp [Graph.contains_vertex, List.any_eq_false]

theorem findVertex_eq_none_of_not_contains (g : Graph VT ET) (i : Nat)
    (h : g.contains_vertex i = false) : g.findVertex i = none := by
  rw [Graph.findVertex, List.find?_eq_none]
  intro v hv
  have := (contains_vertex_false_iff g i).mp h v hv
  simpa using this

theorem exists_findVertex_of_contains (g : Graph VT ET) (i : Nat)
    (h : g.contains_vertex i = true) : ∃ v, g.findVertex i = some v := by
  rcases (contains_vertex_true_iff g i).mp h with ⟨v, hv, hid⟩
  have hsome : (g.findVertex i).isSome = true := by
    rw [Graph.findVertex, List.find?_isSome]
    exact ⟨v, hv, by simp [hid]⟩
  exact Option.isSome_iff_exists.mp hsome

theorem contains_of_findVertex (g : Graph VT ET) (i : Nat) (v : Vertex VT ET)
    (h : g.findVertex i = some v) : g.contains_vertex i = true :=
  (contains_vertex_true_iff g i).mpr ⟨v, findVertex_mem g i v h, findVertex_id g i v h⟩

theorem modifyFirst_eq_of_forall_ne (l : List (Vertex VT ET)) (i : Nat)
    (f : Vertex VT ET → Vertex VT ET) (h : ∀ v ∈ l, v.id ≠ i) :
    modifyFirst l i f = l := by
  induction l with
  | nil => rfl
  | cons v vs ih =>
    have hv : (v.id == i) = false := by
      simpa using h v (List.mem_cons_self v vs)
    rw [modifyFirst, hv]
    simp only [Bool.false_eq_true, if_false, List.cons.injEq, true_and]
    exact ih (fun w hw => h w (List.mem_cons_of_mem v hw))

theorem find?_modifyFirst_ne (l : List (Vertex VT ET)) (i j : Nat)
    (f : Vertex VT ET → Vertex VT ET) (hij : j ≠ i) (hf : ∀ v, (f v).id = v.id) :
    (modifyFirst l i f).find? (fun v => v.id == j) = l.find? (fun v => v.id == j) := by
  induction l with
  | nil => rfl
  | cons v vs ih =>
    by_cases hvi : v.id = i
    · have hb : (v.id == i) = true := by simpa using hvi
      have hfj : ((f v).id == j) = false := by
        rw [hf v, hvi]
        simpa using fun h : i = j => hij h.symm
      have hvj : (v.id == j) = false := by
        rw [hvi]
        simpa using fun h : i = j => hij h.symm
      rw [modifyFirst, hb]
      simp only [if_true]
      rw [List.find?_cons, List.find?_cons, hfj, hvj]
    · have hb : (v.id == i) = false := by simpa using hvi
      rw [modifyFirst, hb]
      simp only [Bool.false_eq_true, if_false]
      rw [List.find?_cons, List.find?_cons]
      cases hvj : (v.id == j) with
      | true => rfl
      | false => exact ih

theorem find?_modifyFirst_self (l : List (Vertex VT ET)) (i : Nat)
    (f : Vertex VT ET → Vertex VT ET) (hf : ∀ v, (f v).id = v.id) :
    (modifyFirst l i f).find? (fun v => v.id == i) =
      (l.find? (fun v => v.id == i)).map f := by
  induction l with
  | nil => rfl
  | cons v vs ih =>
    by_cases hvi : v.id = i
    · have hb : (v.id == i) = true := by simpa using hvi
      have hfb : ((f v).id == i) = true := by simp [hf v, hvi]
      rw [modifyFirst, hb]
      simp only [if_true]
      rw [List.find?_cons, List.find?_cons, hfb, hb]
      rfl
    · have hb : (v.id == i) = false := by simpa using hvi
      rw [modifyFirst, hb]
      simp only [Bool.false_eq_true, if_false]
      rw [List.find?_cons, List.find?_cons, hb]
      exact ih

theorem map_id_modifyFirst (l : List (Vertex VT ET)) (i : Nat)
    (f : Vertex VT ET → Vertex VT ET) (hf : ∀ v, (f v).id = v.id) :
    (modifyFirst l i f).map Vertex.id = l.map Vertex.id := by
  induction l with
  | nil => rfl
  | cons v vs ih =>
    rw [modifyFirst]
    cases hb : (v.id == i) with
    | true => simp [hf v]
    | false => simp [ih]

theorem mem_modifyFirst (l : List (Vertex VT ET)) (i : Nat)
    (f : Vertex VT ET → Vertex VT ET) (v' : Vertex VT ET)
    (h : v' ∈ modifyFirst l i f) : v' ∈ l ∨ ∃ v ∈ l, v.id = i ∧ v' = f v := by
  induction l with
  | nil => simpa [modifyFirst] using h
  | cons v vs ih =>
    rw [modifyFirst] at h
    cases hb : (v.id == i) with
    | true =>
      rw [hb] at h
      simp only [if_true] at h
      rcases List.mem_cons.mp h with h | h
      · exact Or.inr ⟨v, List.mem_cons_self v vs, by simpa using hb, h⟩
      · exact Or.inl (List.mem_cons_of_mem v h)
    | false =>
      rw [hb] at h
      simp only [Bool.false_eq_true, if_false] at h
      rcases List.mem_cons.mp h with h | h
      · exact Or.inl (h ▸ List.mem_cons_self v vs)
      · rcases ih h with h | ⟨w, hw, hwi, hw'⟩
        · exact Or.inl (List.mem_cons_of_mem v h)
        · exact Or.inr ⟨w, List.mem_cons_of_mem v hw, hwi, hw'⟩

theorem Graph.findVertex_modifyVertex_ne (g : Graph VT ET) (i j : Nat)
    (f : Vertex VT ET → Vertex VT ET) (hij : j ≠ i) (hf : ∀ v, (f v).id = v.id) :
    (g.modifyVertex i f).findVertex j = g.findVertex j :=
  find?_modifyFirst_ne g.vertices i j f hij hf

theorem Graph.findVertex_modifyVertex_self (g : Graph VT ET) (i : Nat)
    (f : Vertex VT ET → Vertex VT ET) (hf : ∀ v, (f v).id = v.id) :
    (g.modifyVertex i f).findVertex i = (g.findVertex i).map f :=
  find?_modifyFirst_self g.vertices i f hf

theorem Graph.contains_modifyVertex (g : Graph VT ET) (i j : Nat)
    (f : Vertex VT ET → Vertex VT ET) (hf : ∀ v, (f v).id = v.id) :
    (g.modifyVertex i f).contains_vertex j = g.contains_vertex j := by
  have hmap := map_id_modifyFirst g.vertices i f hf
  rw [Graph.contains_vertex, Graph.contains_vertex]
  cases hc : g.vertices.any (fun v => v.id == j) with
  | true =>
    rcases List.any_eq_true.mp hc with ⟨v, hv, hb⟩
    apply List.any_eq_true.mpr
    have : v.id ∈ (modifyFirst g.vertices i f).map Vertex.id := by
      rw [hmap]
      exact List.mem_map_of_mem Vertex.id hv
    rcases List.mem_map.mp this with ⟨w, hw, hwid⟩
    exact ⟨w, hw, by rw [hwid]; exact hb⟩
  | false =>
    apply List.any_eq_false.mpr
    intro v hv
    have : v.id ∈ g.vertices.map Vertex.id := by
      rw [← hmap]
      exact List.mem_map_of_mem Vertex.id hv
    rcases List.mem_map.mp this with ⟨w, hw, hwid⟩
    have := List.any_eq_false.mp hc w hw
    rw [hwid] at this
    simpa using this

theorem Graph.type_modifyVertex (g : Graph VT ET) (i : Nat)
    (f : Vertex VT ET → Vertex VT ET) : (g.modifyVertex i f).type = g.type := rfl

/-! Characterisation of `add_edge_direction` by the three source branches. -/

theorem add_edge_direction_absent (g : Graph VT ET) (from_id to_id : Nat)
    (value : Option ET) (t : EdgeDirectionType) (h : g.findVertex from_id = none) :
    g.add_edge_direction from_id to_id value t = (.error (.VertexNotFound from_id), g) := by
  rw [Graph.add_edge_direction, h]

theorem add_edge_direction_noop (g : Graph VT ET) (from_id to_id : Nat)
    (value : Option ET) (t : EdgeDirectionType) (vf : Vertex VT ET)
    (h : g.findVertex from_id = some vf)
    (hd : ∃ d ∈ vf.edge_directions, d.to_vertex_id = to_id) :
    g.add_edge_direction from_id to_id value t = (.ok (), g) := by
  rw [Graph.add_edge_direction, h]
  have hany : (vf.edge_directions.any fun e =>
      e.eqByTarget { to_vertex_id := to_id, value := value, type := t }) = true := by
    rcases hd with ⟨d, hdm, hdt⟩
    exact List.any_eq_true.mpr ⟨d, hdm, by simp [EdgeDirection.eqByTarget, hdt]⟩
  simp only [hany, if_true]

theorem add_edge_direction_push (g : Graph VT ET) (from_id to_id : Nat)
    (value : Option ET) (t : EdgeDirectionType) (vf : Vertex VT ET)
    (h : g.findVertex from_id = some vf)
    (hd : ∀ d ∈ vf.edge_directions, d.to_vertex_id ≠ to_id) :
    g.add_edge_direction from_id to_id value t =
      (.ok (), g.modifyVertex from_id (fun v =>
        { v with edge_directions :=
            v.edge_directions ++ [{ to_vertex_id := to_id, value := value, type := t }] })) := by
  rw [Graph.add_edge_direction, h]
  have hany : (vf.edge_directions.any fun e =>
      e.eqByTarget { to_vertex_id := to_id, value := value, type := t }) = false := by
    apply List.any_eq_false.mpr
    intro d hdm
    simp [EdgeDirection.eqByTarget, hd d hdm]
  simp only [hany, Bool.false_eq_true, if_false]

/-! Claim C8: `add_vertex` on a duplicate id fails with
`VertexAlreadyExist` and leaves the graph unchanged; on a fresh id it
appends exactly that vertex and succeeds. -/

/-- C8: calling `add_vertex` with a vertex whose id is already present
fails with `VertexAlreadyExist` carrying that id and leaves the graph
unchanged; calling it with a fresh id inserts the vertex and succeeds with
no other side effect. -/
theorem add_vertex_spec (g : Graph VT ET) (v : Vertex VT ET) :
    (g.contains_vertex v.id = true →
      g.add_vertex v = (.error (.VertexAlreadyExist v.id), g)) ∧
    (g.contains_vertex v.id = false →
      g.add_vertex v = (.ok (), { g with vertices := g.vertices ++ [v] })) := by
  constructor <;> intro h <;> simp [Graph.add_vertex, h]

/-- Witness for C8 at a concrete one-vertex graph: the duplicate insertion
fails and the fresh insertion succeeds. -/
theorem add_vertex_spec_witness :
    (@Graph.add_vertex Unit Unit
        { vertices := [{ id := 1, value := none, edge_directions := [] }],
          type := .Undirected }
        { id := 1, value := none, edge_directions := [] }
      = (.error (.VertexAlreadyExist 1),
         { vertices := [{ id := 1, value := none, edge_directions := [] }],
           type := .Undirected })) ∧
    (@Graph.add_vertex Unit Unit
        { vertices := [{ id := 1, value := none, edge_directions := [] }],
          type := .Undirected }
        { id := 2, value := none, edge_directions := [] }
      = (.ok (),
         { vertices := [{ id := 1, value := none, edge_directions := [] },
                        { id := 2, value := none, edge_directions := [] }],
           type := .Undirected })) :=
  ⟨(add_vertex_spec _ _).1 (by decide), (add_vertex_spec _ _).2 (by decide)⟩

/-! Claim C10: in undirected mode a failing `add_edge` is not atomic. -/

/-- C10: in undirected mode, when `from_id` exists, `to_id` does not, and
`from_id`'s list has no direction targeting `to_id`, `add_edge` returns
`VertexNotFound to_id` yet leaves a `Strong` direction `from_id → to_id`
in `from_id`'s edge list. -/
theorem add_edge_partial_mutation (g : Graph VT ET) (from_id to_id : Nat)
    (value : Option ET) (vf : Vertex VT ET)
    (hmode : g.type = .Undirected)
    (hfrom : g.findVertex from_id = some vf)
    (hto : g.contains_vertex to_id = false)
    (hnot : ∀ d ∈ vf.edge_directions, d.to_vertex_id ≠ to_id) :
    (g.add_edge from_id to_id value).1 = .error (.VertexNotFound to_id) ∧
    ∃ vf', (g.add_edge from_id to_id value).2.findVertex from_id = some vf' ∧
      ({ to_vertex_id := to_id, value := value, type := .Strong } : EdgeDirection ET)
        ∈ vf'.edge_directions := by
  have hf : ∀ v : Vertex VT ET,
      ({ v with edge_directions := v.edge_directions ++
        [{ to_vertex_id := to_id, value := value, type := .Strong }] } : Vertex VT ET).id
        = v.id := fun _ => rfl
  have hstep1 := add_edge_direction_push g from_id to_id value .Strong vf hfrom hnot
  set g1 := g.modifyVertex from_id (fun v =>
    { v with edge_directions := v.edge_directions ++
        [{ to_vertex_id := to_id, value := value, type := .Strong }] }) with hg1
  have hcont1 : g1.contains_vertex to_id = false := by
    rw [hg1, Graph.contains_modifyVertex g from_id to_id _ hf]
    exact hto
  have hnone1 : g1.findVertex to_id = none :=
    findVertex_eq_none_of_not_contains g1 to_id hcont1
  have hstep2 := add_edge_direction_absent g1 to_id from_id value .Weak hnone1
  have hresult : g.add_edge from_id to_id value = (.error (.VertexNotFound to_id), g1) := by
    rw [Graph.add_edge, hmode]
    rw [hstep1]
    exact hstep2
  refine ⟨by rw [hresult], ?_⟩
  have hfind1 : g1.findVertex from_id = (g.findVertex from_id).map (fun v =>
      { v with edge_directions := v.edge_directions ++
          [{ to_vertex_id := to_id, value := value, type := .Strong }] }) :=
    Graph.findVertex_modifyVertex_self g from_id _ hf
  rw [hresult]
  refine ⟨{ vf with edge_directions := vf.edge_directions ++
      [{ to_vertex_id := to_id, value := value, type := .Strong }] }, ?_, ?_⟩
  · rw [hfind1, hfrom]
    rfl
  · simp

/-- Witness for C10: single-vertex graph `{1}`, `add_edge 1 2` fails with
`VertexNotFound 2` but leaves `Strong 1 → 2` behind. -/
theorem add_edge_partial_mutation_witness :
    ((@Graph.add_edge Unit Unit
        { vertices := [{ id := 1, value := none, edge_directions := [] }],
          type := .Undirected } 1 2 none).1 = .error (.VertexNotFound 2)) ∧
    ∃ vf', (@Graph.add_edge Unit Unit
        { vertices := [{ id := 1, value := none, edge_directions := [] }],
          type := .Undirected } 1 2 none).2.findVertex 1 = some vf' ∧
      ({ to_vertex_id := 2, value := none, type := .Strong } : EdgeDirection Unit)
        ∈ vf'.edge_directions :=
  add_edge_partial_mutation _ 1 2 none
    { id := 1, value := none, edge_directions := [] }
    (by decide) (by decide) (by decide) (by decide)

/-! Claim C5: `delete_vertex` removes the vertex and scrubs every edge
direction targeting it.  The scrub removes only the first match per list,
so the claim relies on targets being pairwise distinct within each list —
an invariant every API-reachable graph satisfies (claim C9). -/

/-- Pairwise distinct targets bound the number of matches of the scrub
comparator by one. -/
theorem countP_target_le_one (l : List (EdgeDirection ET))
    (h : (l.map EdgeDirection.to_vertex_id).Nodup) (i : Nat) :
    l.countP (fun e => e.to_vertex_id == i) ≤ 1 := by
  induction l with
  | nil => simp
  | cons d ds ih =>
    rw [List.map_cons, List.nodup_cons] at h
    simp only [List.countP_cons]
    by_cases hd : d.to_vertex_id = i
    · have hpos : (d.to_vertex_id == i) = true := by simpa using hd
      have hzero : ds.countP (fun e => e.to_vertex_id == i) = 0 := by
        apply List.countP_eq_zero.mpr
        intro e hem
        simp only [beq_iff_eq]
        intro hei
        exact h.1 (by rw [hd, ← hei]; exact List.mem_map_of_mem _ hem)
      rw [hzero, hpos]
      simp
    · have hneg : (d.to_vertex_id == i) = false := by simpa using hd
      rw [hneg]
      simpa using ih h.2

/-- After removing the first match from a list with at most one match, no
match remains. -/
theorem remove_from_vec_no_match {T : Type} (l : List T) (p : T → Bool)
    (h : l.countP p ≤ 1) : ∀ x ∈ remove_from_vec l p, p x = false := by
  induction l with
  | nil => intro x hx; simp [remove_from_vec] at hx
  | cons a as ih =>
    intro x hx
    rw [remove_from_vec] at hx
    by_cases hp : p a = true
    · rw [hp] at hx
      simp only [if_true] at hx
      rw [List.countP_cons, hp] at h
      simp only [if_true] at h
      have hzero : as.countP p = 0 := by omega
      have := List.countP_eq_zero.mp hzero x hx
      simpa using this
    · have hp' : p a = false := by simpa using hp
      rw [hp'] at hx
      simp only [Bool.false_eq_true, if_false] at hx
      rcases List.mem_cons.mp hx with rfl | hx'
      · exact hp'
      · rw [List.countP_cons, hp'] at h
        simp only [Bool.false_eq_true, if_false, Nat.add_zero] at h
        exact ih h x hx'

/-- C5: `delete_vertex id` removes the vertex with that id if present,
never errors (it is a total function, absence included), and afterwards no
remaining vertex's edge list contains a direction whose target equals
`id`, provided each edge list's targets are pairwise distinct (true of
every API-reachable graph, claim C9). -/
theorem delete_vertex_spec (g : Graph VT ET) (vertex_id : Nat)
    (hd : ∀ v ∈ g.vertices, (v.edge_directions.map EdgeDirection.to_vertex_id).Nodup) :
    (∀ v ∈ (g.delete_vertex vertex_id).vertices, v.id ≠ vertex_id) ∧
    (∀ v ∈ (g.delete_vertex vertex_id).vertices, ∀ d ∈ v.edge_directions,
      d.to_vertex_id ≠ vertex_id) := by
  constructor
  · intro v hv
    rw [Graph.delete_vertex] at hv
    simp only [List.mem_map] at hv
    rcases hv with ⟨w, hw, hwv⟩
    have hwid := List.of_mem_filter hw
    rw [← hwv]
    simpa using hwid
  · intro v hv d hdm
    rw [Graph.delete_vertex] at hv
    simp only [List.mem_map] at hv
    rcases hv with ⟨w, hw, hwv⟩
    have hwmem : w ∈ g.vertices := List.mem_of_mem_filter hw
    have hcount := countP_target_le_one w.edge_directions (hd w hwmem) vertex_id
    have hno := remove_from_vec_no_match w.edge_directions
      (fun e => e.to_vertex_id == vertex_id) hcount
    rw [← hwv] at hdm
    have := hno d hdm
    simpa using this

/-- Witness for C5: deleting vertex 2 from the undirected path `1 — 2`
leaves no vertex 2 and no direction targeting 2. -/
theorem delete_vertex_spec_witness :
    (∀ v ∈ (@Graph.delete_vertex Unit Unit
        { vertices :=
            [{ id := 1, value := none, edge_directions :=
                [{ to_vertex_id := 2, value := none, type := .Strong }] },
             { id := 2, value := none, edge_directions :=
                [{ to_vertex_id := 1, value := none, type := .Weak }] }],
          type := .Undirected } 2).vertices, v.id ≠ 2) ∧
    (∀ v ∈ (@Graph.delete_vertex Unit Unit
        { vertices :=
            [{ id := 1, value := none, edge_directions :=
                [{ to_vertex_id := 2, value := none, type := .Strong }] },
             { id := 2, value := none, edge_directions :=
                [{ to_vertex_id := 1, value := none, type := .Weak }] }],
          type := .Undirected } 2).vertices, ∀ d ∈ v.edge_directions,
      d.to_vertex_id ≠ 2) :=
  delete_vertex_spec _ 2 (by decide)

/-! Claim C6: idempotence of `add_edge`.  As stated (only one list already
holds the direction) the claim is false: on a dangling `Strong` direction
whose target vertex does not exist — an API-reachable state — the repeated
`add_edge` returns `VertexNotFound`, not success. -/

/-- C6 counterexample: starting from `new(Undirected)`, `add_vertex 1`
followed by the (failing) `add_edge 1 2` leaves `Strong 1 → 2` in vertex
1's list; calling `add_edge 1 2` again — a pair whose direction already
exists in the relevant adjacency list — returns `VertexNotFound 2`, not
success. -/
theorem add_edge_idempotent_counterexample :
    ((((Graph.new Unit Unit .Undirected).add_vertex (Vertex.new 1 none)).2.add_edge
        1 2 none).2.findVertex 1
      = some { id := 1, value := none, edge_directions :=
          [{ to_vertex_id := 2, value := none, type := .Strong }] }) ∧
    (((((Graph.new Unit Unit .Undirected).add_vertex (Vertex.new 1 none)).2.add_edge
        1 2 none).2.add_edge 1 2 none).1
      = .error (.VertexNotFound 2)) :=
  ⟨rfl, rfl⟩

/-- C6 amended: when the edge direction is present in every list the call
inserts into — both mirrored lists in undirected mode, the single list in
directed mode (with the target vertex present, as its upfront check
demands) — `add_edge` returns success and leaves the graph completely
unchanged, for any payload, equal or different, because edge-direction
equality compares only the target identifier. -/
theorem add_edge_idempotent_amended (g : Graph VT ET) (from_id to_id : Nat)
    (value : Option ET) (vf vt : Vertex VT ET)
    (hfrom : g.findVertex from_id = some vf)
    (hf : ∃ d ∈ vf.edge_directions, d.to_vertex_id = to_id)
    (hund : g.type = .Undirected →
      g.findVertex to_id = some vt ∧ ∃ d ∈ vt.edge_directions, d.to_vertex_id = from_id)
    (hdir : g.type = .Directed → g.contains_vertex to_id = true) :
    g.add_edge from_id to_id value = (.ok (), g) := by
  cases hmode : g.type with
  | Undirected =>
    rcases hund hmode with ⟨hto, hback⟩
    rw [Graph.add_edge, hmode]
    rw [add_edge_direction_noop g from_id to_id value .Strong vf hfrom hf]
    exact add_edge_direction_noop g to_id from_id value .Weak vt hto hback
  | Directed =>
    rw [Graph.add_edge, hmode]
    have hc := hdir hmode
    rw [hc]
    simp only [Bool.not_true, Bool.false_eq_true, if_false]
    exact add_edge_direction_noop g from_id to_id value .Strong vf hfrom hf

/-- Undirected graph `1 — 2` with both mirrored edge directions (payload
`none`), used to witness the amended C6. -/
def edgePairGraph : Graph Unit Unit :=
  { vertices :=
      [{ id := 1, value := none, edge_directions :=
          [{ to_vertex_id := 2, value := none, type := .Strong }] },
       { id := 2, value := none, edge_directions :=
          [{ to_vertex_id := 1, value := none, type := .Weak }] }],
    type := .Undirected }

/-- Witness for the amended C6: re-adding the `1 — 2` edge with a different
payload (`some ()` instead of `none`) succeeds and changes nothing. -/
theorem add_edge_idempotent_amended_witness :
    edgePairGraph.add_edge 1 2 (some ()) = (.ok (), edgePairGraph) :=
  add_edge_idempotent_amended edgePairGraph 1 2 (some ())
    { id := 1, value := none, edge_directions :=
        [{ to_vertex_id := 2, value := none, type := .Strong }] }
    { id := 2, value := none, edge_directions :=
        [{ to_vertex_id := 1, value := none, type := .Weak }] }
    (by decide) (by decide) (by decide) (by decide)

/-! Claim C3: the parse-error taxonomy.  As stated it is false: Rust's
`split(" ")` always yields a first (possibly empty) token, so a vertex
line with no token at all — the empty line — fails with
`WrongVertexIdType`, never `ParseVertexId`. -/

/-- C3 counterexample: the empty vertex line has no numeric token (indeed
no non-empty token at all), yet `parse_vertex` fails with
`WrongVertexIdType`, not `ParseVertexId`. -/
theorem parse_vertex_error_counterexample :
    parse_vertex [] = .error (.WrongVertexIdType "") ∧
    GraphError.WrongVertexIdType "" ≠ GraphError.ParseVertexId "" :=
  ⟨rfl, by decide⟩

/-- C3 amended: `parse_vertex` never returns `ParseVertexId` (the split's
first token always exists); a vertex line whose leading token does not
parse as an unsigned integer fails with `WrongVertexIdType`; for edge
lines, a missing second token fails with `ParseVertexId` and a present but
unparsable first or second token fails with `WrongVertexIdType`. -/
theorem parse_error_taxonomy_amended :
    (∀ (line : List Char) (s : String),
        parse_vertex line ≠ .error (.ParseVertexId s)) ∧
    (∀ line : List Char, parseU32 (splitSp line).1 = none →
        parse_vertex line = .error (.WrongVertexIdType (String.mk line))) ∧
    (∀ (line : List Char) (g : Graph (List Char) (List Char)),
        parseU32 (splitSp line).1 = none →
        parse_edge line g = .error (.WrongVertexIdType (String.mk line))) ∧
    (∀ (line : List Char) (g : Graph (List Char) (List Char)) (n : Nat),
        parseU32 (splitSp line).1 = some n → (splitSp line).2 = [] →
        parse_edge line g = .error (.ParseVertexId (String.mk line))) ∧
    (∀ (line : List Char) (g : Graph (List Char) (List Char)) (n : Nat)
        (tok2 : List Char) (rest2 : List (List Char)),
        parseU32 (splitSp line).1 = some n → (splitSp line).2 = tok2 :: rest2 →
        parseU32 tok2 = none →
        parse_edge line g = .error (.WrongVertexIdType (String.mk line))) := by
  refine ⟨?_, ?_, ?_, ?_, ?_⟩
  · intro line s
    cases hp : parseU32 (splitSp line).1 with
    | none => simp [parse_vertex, tokens, hp]
    | some n => simp [parse_vertex, tokens, hp]
  · intro line h
    simp [parse_vertex, tokens, h]
  · intro line g h
    simp [parse_edge, tokens, h]
  · intro line g n h1 h2
    simp [parse_edge, tokens, h1, h2]
  · intro line g n tok2 rest2 h1 h2 h3
    simp [parse_edge, tokens, h1, h2, h3]

/-- Witness for the amended C3: the line `a` fails as `WrongVertexIdType`
and the one-token edge line `5` fails as `ParseVertexId`. -/
theorem parse_error_taxonomy_amended_witness :
    parse_vertex ['a'] = .error (.WrongVertexIdType "a") ∧
    parse_edge ['5'] (Graph.new (List Char) (List Char) .Undirected)
      = .error (.ParseVertexId "5") :=
  ⟨parse_error_taxonomy_amended.2.1 ['a'] (by decide),
   parse_error_taxonomy_amended.2.2.2.1 ['5'] _ 5 (by decide) (by decide)⟩

/-! Claim C9: target ids within each vertex's edge list stay pairwise
distinct throughout every API operation sequence. -/

/-- One public API call, relating the state before to the state after (the
state after a failing call included: the Rust methods mutate in place).
`add_vertex` takes a `Vertex::new` vertex — the only vertex constructor
the public API exposes, always with an empty edge list. -/
inductive ApiStep : Graph VT ET → Graph VT ET → Prop where
  | add_vertex (g : Graph VT ET) (id : Nat) (value : Option VT) :
      ApiStep g (g.add_vertex (Vertex.new id value)).2
  | delete_vertex (g : Graph VT ET) (id : Nat) :
      ApiStep g (g.delete_vertex id)
  | add_edge (g : Graph VT ET) (from_id to_id : Nat) (value : Option ET) :
      ApiStep g (g.add_edge from_id to_id value).2
  | delete_edge (g : Graph VT ET) (from_id to_id : Nat) :
      ApiStep g (g.delete_edge from_id to_id)

/-- Graph states reachable from `Graph::new` by public API calls. -/
inductive Reachable : Graph VT ET → Prop where
  | new (t : GraphType) : Reachable (Graph.new VT ET t)
  | step {g g' : Graph VT ET} : Reachable g → ApiStep g g' → Reachable g'

/-- Invariant of claim C9: within each vertex's edge-direction list the
target identifiers are pairwise distinct. -/
def Graph.distinctTargets (g : Graph VT ET) : Prop :=
  ∀ v ∈ g.vertices, (v.edge_directions.map EdgeDirection.to_vertex_id).Nodup

theorem sublist_remove_from_vec {T : Type} (l : List T) (p : T → Bool) :
    List.Sublist (remove_from_vec l p) l := by
  induction l with
  | nil => simp [remove_from_vec]
  | cons a as ih =>
    rw [remove_from_vec]
    by_cases hp : p a = true
    · rw [hp]
      simp only [if_true]
      exact List.sublist_cons_self a as
    · have hp' : p a = false := by simpa using hp
      rw [hp']
      simp only [Bool.false_eq_true, if_false]
      exact List.Sublist.cons₂ a ih

/-- Strong form of membership in `modifyFirst`: a member of the modified
list is either an untouched member of the original or the image of exactly
the vertex `find?` locates. -/
theorem mem_modifyFirst_find? (l : List (Vertex VT ET)) (i : Nat)
    (f : Vertex VT ET → Vertex VT ET) (v' : Vertex VT ET)
    (h : v' ∈ modifyFirst l i f) :
    v' ∈ l ∨ ∃ v, l.find? (fun w => w.id == i) = some v ∧ v' = f v := by
  induction l with
  | nil => simpa [modifyFirst] using h
  | cons v vs ih =>
    rw [modifyFirst] at h
    cases hb : (v.id == i) with
    | true =>
      rw [hb] at h
      simp only [if_true] at h
      rcases List.mem_cons.mp h with h | h
      · exact Or.inr ⟨v, by rw [List.find?_cons, hb], h⟩
      · exact Or.inl (List.mem_cons_of_mem v h)
    | false =>
      rw [hb] at h
      simp only [Bool.false_eq_true, if_false] at h
      rcases List.mem_cons.mp h with h | h
      · exact Or.inl (h ▸ List.mem_cons_self v vs)
      · rcases ih h with h | ⟨w, hw, hw'⟩
        · exact Or.inl (List.mem_cons_of_mem v h)
        · exact Or.inr ⟨w, by rw [List.find?_cons, hb]; exact hw, hw'⟩

theorem distinctTargets_add_vertex (g : Graph VT ET) (id : Nat) (value : Option VT)
    (h : g.distinctTargets) : (g.add_vertex (Vertex.new id value)).2.distinctTargets := by
  rw [Graph.add_vertex]
  by_cases hc : g.contains_vertex (@Vertex.new VT ET id value).id = true
  · simpa [hc] using h
  · have hc' : g.contains_vertex (@Vertex.new VT ET id value).id = false := by
      simpa using hc
    rw [hc']
    simp only [Bool.false_eq_true, if_false]
    intro v hv
    rcases List.mem_append.mp hv with hv | hv
    · exact h v hv
    · rcases List.mem_singleton.mp hv with rfl
      simp [Vertex.new]

theorem distinctTargets_delete_vertex (g : Graph VT ET) (id : Nat)
    (h : g.distinctTargets) : (g.delete_vertex id).distinctTargets := by
  intro v hv
  rw [Graph.delete_vertex] at hv
  simp only [List.mem_map] at hv
  rcases hv with ⟨w, hw, hwv⟩
  have hwmem : w ∈ g.vertices := List.mem_of_mem_filter hw
  have hsub : List.Sublist
      (remove_from_vec w.edge_directions (fun e => e.to_vertex_id == id))
      w.edge_directions := sublist_remove_from_vec _ _
  have := List.Nodup.sublist (hsub.map EdgeDirection.to_vertex_id) (h w hwmem)
  rw [← hwv]
  exact this

theorem distinctTargets_add_edge_direction (g : Graph VT ET) (from_id to_id : Nat)
    (value : Option ET) (t : EdgeDirectionType) (h : g.distinctTargets) :
    (g.add_edge_direction from_id to_id value t).2.distinctTargets := by
  cases hfind : g.findVertex from_id with
  | none =>
    rw [add_edge_direction_absent g from_id to_id value t hfind]
    exact h
  | some vf =>
    by_cases hex : ∃ d ∈ vf.edge_directions, d.to_vertex_id = to_id
    · rw [add_edge_direction_noop g from_id to_id value t vf hfind hex]
      exact h
    · push_neg at hex
      rw [add_edge_direction_push g from_id to_id value t vf hfind hex]
      intro v hv
      rcases mem_modifyFirst_find? g.vertices from_id _ v hv with hv | ⟨w, hw, rfl⟩
      · exact h v hv
      · have hwvf : w = vf := by
          rw [Graph.findVertex] at hfind
          rw [hw] at hfind
          exact (Option.some.injEq _ _).mp hfind
        subst hwvf
        have hmem : w ∈ g.vertices := List.mem_of_find?_eq_some hw
        have hnodup := h w hmem
        have hnotin : to_id ∉ w.edge_directions.map EdgeDirection.to_vertex_id := by
          intro hcontra
          rcases List.mem_map.mp hcontra with ⟨d, hd, hdt⟩
          exact hex d hd hdt
        simp only [List.map_append, List.map_cons, List.map_nil]
        rw [List.nodup_append]
        refine ⟨hnodup, List.nodup_singleton _, ?_⟩
        intro x hx
        simp only [List.mem_singleton]
        intro hxe
        subst hxe
        exact hnotin hx

theorem distinctTargets_add_edge (g : Graph VT ET) (from_id to_id : Nat)
    (value : Option ET) (h : g.distinctTargets) :
    (g.add_edge from_id to_id value).2.distinctTargets := by
  cases hmode : g.type with
  | Undirected =>
    rw [Graph.add_edge, hmode]
    have h1 := distinctTargets_add_edge_direction g from_id to_id value .Strong h
    rcases hstep : g.add_edge_direction from_id to_id value .Strong with ⟨r, g1⟩
    rw [hstep] at h1
    cases r with
    | error e => exact h1
    | ok u => exact distinctTargets_add_edge_direction g1 to_id from_id value .Weak h1
  | Directed =>
    rw [Graph.add_edge, hmode]
    by_cases hc : g.contains_vertex to_id = true
    · rw [hc]
      simp only [Bool.not_true, Bool.false_eq_true, if_false]
      exact distinctTargets_add_edge_direction g from_id to_id value .Strong h
    · have hc' : g.contains_vertex to_id = false := by simpa using hc
      rw [hc']
      simpa using h

theorem distinctTargets_delete_edge_direction (g : Graph VT ET) (from_id to_id : Nat)
    (h : g.distinctTargets) : (g.delete_edge_direction from_id to_id).distinctTargets := by
  intro v hv
  rw [Graph.delete_edge_direction] at hv
  rcases mem_modifyFirst_find? g.vertices from_id _ v hv with hv | ⟨w, hw, rfl⟩
  · exact h v hv
  · have hmem : w ∈ g.vertices := List.mem_of_find?_eq_some hw
    have hsub : List.Sublist
        (remove_from_vec w.edge_directions (fun e => e.to_vertex_id == to_id))
        w.edge_directions := sublist_remove_from_vec _ _
    exact List.Nodup.sublist (hsub.map EdgeDirection.to_vertex_id) (h w hmem)

theorem distinctTargets_delete_edge (g : Graph VT ET) (from_id to_id : Nat)
    (h : g.distinctTargets) : (g.delete_edge from_id to_id).distinctTargets := by
  rw [Graph.delete_edge]
  cases g.type with
  | Undirected =>
    exact distinctTargets_delete_edge_direction _ to_id from_id
      (distinctTargets_delete_edge_direction g from_id to_id h)
  | Directed => exact distinctTargets_delete_edge_direction g from_id to_id h

/-- C9: in every graph reachable from `new(mode)` by any sequence of public
API operations, the target identifiers in each vertex's edge-direction
list are pairwise distinct; every operation preserves this invariant. -/
theorem api_reachable_distinctTargets (g : Graph VT ET) (h : Reachable g) :
    ∀ v ∈ g.vertices, (v.edge_directions.map EdgeDirection.to_vertex_id).Nodup := by
  induction h with
  | new t => intro v hv; simp [Graph.new] at hv
  | step hr hs ih =>
    cases hs with
    | add_vertex id value => exact distinctTargets_add_vertex _ id value ih
    | delete_vertex id => exact distinctTargets_delete_vertex _ id ih
    | add_edge from_id to_id value => exact distinctTargets_add_edge _ from_id to_id value ih
    | delete_edge from_id to_id => exact distinctTargets_delete_edge _ from_id to_id ih

/-- Witness for C9 on a concrete reachable state (a failed `add_edge`
included): targets stay distinct. -/
theorem api_reachable_distinctTargets_witness :
    ((Vertex.mk 1 none [EdgeDirection.mk 2 none EdgeDirectionType.Strong]
        : Vertex Unit Unit)
      ∈ ((((Graph.new Unit Unit .Undirected).add_vertex
          (Vertex.new 1 none)).2.add_edge 1 2 none).2).vertices) ∧
    (((Vertex.mk 1 none [EdgeDirection.mk 2 none EdgeDirectionType.Strong]
        : Vertex Unit Unit).edge_directions.map EdgeDirection.to_vertex_id).Nodup) :=
  ⟨by decide,
   api_reachable_distinctTargets _
    (Reachable.step
      (Reachable.step (Reachable.new .Undirected) (ApiStep.add_vertex _ 1 none))
      (ApiStep.add_edge _ 1 2 none))
    (Vertex.mk 1 none [EdgeDirection.mk 2 none EdgeDirectionType.Strong])
    (by decide)⟩

/-! Infrastructure for claim C1: lookups under append, filter and
first-match removal, uniqueness of vertices under distinct ids, and
preservation of the id set and the graph mode by every operation. -/

theorem find?_append_some {α : Type} {p : α → Bool} {l₁ l₂ : List α} {x : α}
    (h : l₁.find? p = some x) : (l₁ ++ l₂).find? p = some x := by
  induction l₁ with
  | nil => simp [List.find?] at h
  | cons a as ih =>
    rw [List.cons_append, List.find?_cons]
    rw [List.find?_cons] at h
    cases hp : p a with
    | true => rw [hp] at h; simpa using h
    | false => rw [hp] at h; exact ih h

theorem find?_append_none {α : Type} {p : α → Bool} {l₁ l₂ : List α}
    (h : l₁.find? p = none) : (l₁ ++ l₂).find? p = l₂.find? p := by
  induction l₁ with
  | nil => simp
  | cons a as ih =>
    rw [List.find?_cons] at h
    cases hp : p a with
    | true => rw [hp] at h; simp at h
    | false =>
      rw [hp] at h
      rw [List.cons_append, List.find?_cons, hp]
      exact ih h

/-- Filtering away elements that can never match leaves `find?` alone. -/
theorem find?_filter_of_imp {α : Type} (p q : α → Bool) (l : List α)
    (h : ∀ x, p x = true → q x = true) :
    (l.filter q).find? p = l.find? p := by
  induction l with
  | nil => rfl
  | cons a as ih =>
    rw [List.filter_cons]
    cases hq : q a with
    | true =>
      simp only [if_true]
      rw [List.find?_cons, List.find?_cons]
      cases hp : p a with
      | true => rfl
      | false => exact ih
    | false =>
      have hp : p a = false := by
        cases hpa : p a with
        | false => rfl
        | true => rw [h a hpa] at hq; cases hq
      simp only [Bool.false_eq_true, if_false]
      rw [List.find?_cons, hp]
      exact ih

theorem mem_remove_from_vec_of_not_match {T : Type} (l : List T) (p : T → Bool)
    (x : T) (hx : x ∈ l) (hp : p x = false) : x ∈ remove_from_vec l p := by
  induction l with
  | nil => simp at hx
  | cons a as ih =>
    rw [remove_from_vec]
    cases hpa : p a with
    | true =>
      simp only [if_true]
      rcases List.mem_cons.mp hx with rfl | hx'
      · rw [hp] at hpa; cases hpa
      · exact hx'
    | false =>
      simp only [Bool.false_eq_true, if_false]
      rcases List.mem_cons.mp hx with rfl | hx'
      · exact List.mem_cons_self x _
      · exact List.mem_cons_of_mem a (ih hx')

theorem remove_from_vec_eq_of_no_match {T : Type} (l : List T) (p : T → Bool)
    (h : ∀ x ∈ l, p x = false) : remove_from_vec l p = l := by
  induction l with
  | nil => rfl
  | cons a as ih =>
    rw [remove_from_vec, h a (List.mem_cons_self a as)]
    simp only [Bool.false_eq_true, if_false, List.cons.injEq, true_and]
    exact ih (fun x hx => h x (List.mem_cons_of_mem a hx))

/-- Two vertices of a graph with pairwise-distinct ids and equal ids are
the same vertex. -/
theorem vertex_eq_of_nodup_ids {l : List (Vertex VT ET)}
    (hnodup : (l.map Vertex.id).Nodup) {v w : Vertex VT ET}
    (hv : v ∈ l) (hw : w ∈ l) (hid : v.id = w.id) : v = w :=
  List.inj_on_of_nodup_map hnodup hv hw hid

/-- With pairwise-distinct ids, looking up a member's id finds exactly that
member. -/
theorem findVertex_of_mem_nodup (g : Graph VT ET)
    (hnodup : (g.vertices.map Vertex.id).Nodup) (v : Vertex VT ET)
    (hv : v ∈ g.vertices) : g.findVertex v.id = some v := by
  have hc : g.contains_vertex v.id = true :=
    (contains_vertex_true_iff g v.id).mpr ⟨v, hv, rfl⟩
  rcases exists_findVertex_of_contains g v.id hc with ⟨w, hw⟩
  have hwid : w.id = v.id := findVertex_id g v.id w hw
  have hwmem : w ∈ g.vertices := findVertex_mem g v.id w hw
  rw [hw, vertex_eq_of_nodup_ids hnodup hwmem hv hwid]

/-- Pairwise-distinct vertex ids, as a graph invariant. -/
def Graph.nodupIds (g : Graph VT ET) : Prop :=
  (g.vertices.map Vertex.id).Nodup

theorem nodupIds_add_vertex (g : Graph VT ET) (id : Nat) (value : Option VT)
    (h : g.nodupIds) : (g.add_vertex (Vertex.new id value)).2.nodupIds := by
  rw [Graph.add_vertex]
  by_cases hc : g.contains_vertex (@Vertex.new VT ET id value).id = true
  · simpa [hc] using h
  · have hc' : g.contains_vertex (@Vertex.new VT ET id value).id = false := by
      simpa using hc
    rw [hc']
    simp only [Bool.false_eq_true, if_false]
    rw [Graph.nodupIds]
    simp only [List.map_append, List.map_cons, List.map_nil]
    rw [List.nodup_append]
    refine ⟨h, List.nodup_singleton _, ?_⟩
    intro x hx
    simp only [List.mem_singleton]
    intro hxe
    subst hxe
    rcases List.mem_map.mp hx with ⟨w, hw, hwid⟩
    have := (contains_vertex_false_iff g _).mp hc' w hw
    exact this hwid

theorem nodupIds_delete_vertex (g : Graph VT ET) (id : Nat)
    (h : g.nodupIds) : (g.delete_vertex id).nodupIds := by
  rw [Graph.delete_vertex, Graph.nodupIds]
  have : (List.map Vertex.id
      ((g.vertices.filter (fun v => v.id != id)).map (fun v =>
        { v with edge_directions :=
            remove_from_vec v.edge_directions (fun e => e.to_vertex_id == id) })))
      = List.map Vertex.id (g.vertices.filter (fun v => v.id != id)) := by
    rw [List.map_map]
    rfl
  rw [this]
  exact List.Nodup.sublist ((List.filter_sublist _).map Vertex.id) h

theorem nodupIds_modifyVertex (g : Graph VT ET) (i : Nat)
    (f : Vertex VT ET → Vertex VT ET) (hf : ∀ v, (f v).id = v.id)
    (h : g.nodupIds) : (g.modifyVertex i f).nodupIds := by
  rw [Graph.nodupIds]
  rw [show (g.modifyVertex i f).vertices = modifyFirst g.vertices i f from rfl]
  rw [map_id_modifyFirst g.vertices i f hf]
  exact h

theorem nodupIds_add_edge_direction (g : Graph VT ET) (from_id to_id : Nat)
    (value : Option ET) (t : EdgeDirectionType) (h : g.nodupIds) :
    (g.add_edge_direction from_id to_id value t).2.nodupIds := by
  cases hfind : g.findVertex from_id with
  | none => rw [add_edge_direction_absent g from_id to_id value t hfind]; exact h
  | some vf =>
    by_cases hex : ∃ d ∈ vf.edge_directions, d.to_vertex_id = to_id
    · rw [add_edge_direction_noop g from_id to_id value t vf hfind hex]; exact h
    · push_neg at hex
      rw [add_edge_direction_push g from_id to_id value t vf hfind hex]
      exact nodupIds_modifyVertex g from_id _ (fun _ => rfl) h

theorem nodupIds_add_edge (g : Graph VT ET) (from_id to_id : Nat)
    (value : Option ET) (h : g.nodupIds) :
    (g.add_edge from_id to_id value).2.nodupIds := by
  cases hmode : g.type with
  | Undirected =>
    rw [Graph.add_edge, hmode]
    have h1 := nodupIds_add_edge_direction g from_id to_id value .Strong h
    rcases hstep : g.add_edge_direction from_id to_id value .Strong with ⟨r, g1⟩
    rw [hstep] at h1
    cases r with
    | error e => exact h1
    | ok u => exact nodupIds_add_edge_direction g1 to_id from_id value .Weak h1
  | Directed =>
    rw [Graph.add_edge, hmode]
    by_cases hc : g.contains_vertex to_id = true
    · rw [hc]
      simp only [Bool.not_true, Bool.false_eq_true, if_false]
      exact nodupIds_add_edge_direction g from_id to_id value .Strong h
    · have hc' : g.contains_vertex to_id = false := by simpa using hc
      rw [hc']
      simpa using h

theorem nodupIds_delete_edge_direction (g : Graph VT ET) (from_id to_id : Nat)
    (h : g.nodupIds) : (g.delete_edge_direction from_id to_id).nodupIds :=
  nodupIds_modifyVertex g from_id _ (fun _ => rfl) h

theorem nodupIds_delete_edge (g : Graph VT ET) (from_id to_id : Nat)
    (h : g.nodupIds) : (g.delete_edge from_id to_id).nodupIds := by
  rw [Graph.delete_edge]
  cases g.type with
  | Undirected =>
    exact nodupIds_delete_edge_direction _ to_id from_id
      (nodupIds_delete_edge_direction g from_id to_id h)
  | Directed => exact nodupIds_delete_edge_direction g from_id to_id h

theorem type_add_vertex (g : Graph VT ET) (v : Vertex VT ET) :
    (g.add_vertex v).2.type = g.type := by
  rw [Graph.add_vertex]
  split <;> rfl

theorem type_delete_vertex (g : Graph VT ET) (id : Nat) :
    (g.delete_vertex id).type = g.type := rfl

theorem type_add_edge_direction (g : Graph VT ET) (from_id to_id : Nat)
    (value : Option ET) (t : EdgeDirectionType) :
    (g.add_edge_direction from_id to_id value t).2.type = g.type := by
  cases hfind : g.findVertex from_id with
  | none => rw [add_edge_direction_absent g from_id to_id value t hfind]
  | some vf =>
    by_cases hex : ∃ d ∈ vf.edge_directions, d.to_vertex_id = to_id
    · rw [add_edge_direction_noop g from_id to_id value t vf hfind hex]
    · push_neg at hex
      rw [add_edge_direction_push g from_id to_id value t vf hfind hex]
      rfl

theorem type_add_edge (g : Graph VT ET) (from_id to_id : Nat) (value : Option ET) :
    (g.add_edge from_id to_id value).2.type = g.type := by
  cases hmode : g.type with
  | Undirected =>
    rw [Graph.add_edge, hmode]
    have h1 := type_add_edge_direction g from_id to_id value .Strong
    rcases hstep : g.add_edge_direction from_id to_id value .Strong with ⟨r, g1⟩
    rw [hstep] at h1
    cases r with
    | error e => rw [h1, hmode]
    | ok u =>
      have h2 := type_add_edge_direction g1 to_id from_id value .Weak
      rw [h2, h1, hmode]
  | Directed =>
    rw [Graph.add_edge, hmode]
    by_cases hc : g.contains_vertex to_id = true
    · rw [hc]
      simp only [Bool.not_true, Bool.false_eq_true, if_false]
      rw [type_add_edge_direction g from_id to_id value .Strong, hmode]
    · have hc' : g.contains_vertex to_id = false := by simpa using hc
      rw [hc']
      simp [hmode]

theorem type_delete_edge_direction (g : Graph VT ET) (from_id to_id : Nat) :
    (g.delete_edge_direction from_id to_id).type = g.type := rfl

theorem type_delete_edge (g : Graph VT ET) (from_id to_id : Nat) :
    (g.delete_edge from_id to_id).type = g.type := by
  rw [Graph.delete_edge]
  cases hmode : g.type with
  | Undirected => exact hmode
  | Directed => exact hmode

/-! Claim C1: the Strong/Weak pairing invariant of undirected graphs. -/

/-- The mirror kind: `Strong` pairs with `Weak` and conversely. -/
def oppositeType : EdgeDirectionType → EdgeDirectionType
  | .Strong => .Weak
  | .Weak => .Strong

theorem oppositeType_ne (t : EdgeDirectionType) : oppositeType t ≠ t := by
  cases t <;> simp [oppositeType]

/-- Pairing invariant of claim C1, in lookup form: every stored direction
`a → b` has a mirror `b → a` of the opposite kind with the same payload
stored at a live vertex `b`. -/
def Graph.pairInvariant (g : Graph VT ET) : Prop :=
  ∀ (a : Nat) (va : Vertex VT ET), g.findVertex a = some va →
    ∀ d ∈ va.edge_directions,
      ∃ vb, g.findVertex d.to_vertex_id = some vb ∧
        ∃ d' ∈ vb.edge_directions, d'.to_vertex_id = a ∧
          d'.type = oppositeType d.type ∧ d'.value = d.value

/-- Under the pairing and distinct-target invariants no direction targets
its own vertex: the mirror would be a second direction with the same
target in the same list, of a different kind. -/
theorem no_self_direction (g : Graph VT ET) (hd : g.distinctTargets)
    (hp : g.pairInvariant) (a : Nat) (va : Vertex VT ET)
    (hfind : g.findVertex a = some va) :
    ∀ d ∈ va.edge_directions, d.to_vertex_id ≠ a := by
  intro d hdm hcontra
  rcases hp a va hfind d hdm with ⟨vb, hvb, d', hd'm, hd'to, hd'ty, hd'val⟩
  rw [hcontra, hfind] at hvb
  have hvbeq : va = vb := by injection hvb
  rw [← hvbeq] at hd'm
  have hmem : va ∈ g.vertices := findVertex_mem g a va hfind
  have hnodup := hd va hmem
  have hdd' : d = d' :=
    List.inj_on_of_nodup_map hnodup hdm hd'm (by rw [hcontra, hd'to])
  rw [← hdd'] at hd'ty
  exact oppositeType_ne d.type hd'ty.symm

theorem pair_add_vertex (g : Graph VT ET) (id : Nat) (value : Option VT)
    (hp : g.pairInvariant) : (g.add_vertex (Vertex.new id value)).2.pairInvariant := by
  rw [Graph.add_vertex]
  by_cases hc : g.contains_vertex (@Vertex.new VT ET id value).id = true
  · simpa [hc] using hp
  · have hc' : g.contains_vertex (@Vertex.new VT ET id value).id = false := by
      simpa using hc
    rw [hc']
    simp only [Bool.false_eq_true, if_false]
    intro a va hfind d hdm
    have hfind' : (g.vertices ++ [Vertex.new id value]).find? (fun v => v.id == a)
        = some va := hfind
    cases hga : g.findVertex a with
    | some w =>
      have hw : (g.vertices ++ [Vertex.new id value]).find? (fun v => v.id == a)
          = some w := find?_append_some hga
      rw [hw] at hfind'
      obtain rfl : va = w := ((Option.some.injEq _ _).mp hfind').symm
      rcases hp a va hga d hdm with ⟨vb, hvb, d', hd'm, hrest⟩
      refine ⟨vb, ?_, d', hd'm, hrest⟩
      show (g.vertices ++ [Vertex.new id value]).find? (fun v => v.id == _) = some vb
      exact find?_append_some hvb
    | none =>
      have heq := @find?_append_none _ _ _ [Vertex.new id value] hga
      rw [heq] at hfind'
      rw [List.find?_cons] at hfind'
      cases hb : ((@Vertex.new VT ET id value).id == a) with
      | true =>
        rw [hb] at hfind'
        simp only [Option.some.injEq] at hfind'
        rw [← hfind'] at hdm
        simp [Vertex.new] at hdm
      | false =>
        rw [hb] at hfind'
        simp at hfind'

/-- Lookup after `delete_vertex`, missing-id side: gone. -/
theorem findVertex_delete_vertex_self (g : Graph VT ET) (x : Nat) :
    (g.delete_vertex x).findVertex x = none := by
  rw [Graph.findVertex, List.find?_eq_none]
  intro v hv
  rw [Graph.delete_vertex] at hv
  simp only [List.mem_map] at hv
  rcases hv with ⟨w, hw, hwv⟩
  have hwid := List.of_mem_filter hw
  simp only [bne_iff_ne, ne_eq] at hwid
  rw [← hwv]
  simpa using hwid

/-- Lookup after `delete_vertex`, surviving-id side: the old vertex with
its edge list scrubbed of directions targeting the deleted id. -/
theorem findVertex_delete_vertex (g : Graph VT ET) (x a : Nat) (hax : a ≠ x) :
    (g.delete_vertex x).findVertex a = (g.findVertex a).map (fun v =>
      { v with edge_directions :=
          remove_from_vec v.edge_directions (fun e => e.to_vertex_id == x) }) := by
  have h1 : (g.delete_vertex x).findVertex a
      = ((g.vertices.filter (fun v => v.id != x)).map (fun v =>
          { v with edge_directions :=
              remove_from_vec v.edge_directions (fun e => e.to_vertex_id == x) })).find?
        (fun v => v.id == a) := rfl
  rw [h1, List.find?_map]
  have h2 : ((fun v : Vertex VT ET => v.id == a) ∘ (fun v =>
      { v with edge_directions :=
          remove_from_vec v.edge_directions (fun e => e.to_vertex_id == x) }))
      = (fun v : Vertex VT ET => v.id == a) := rfl
  rw [h2]
  rw [find?_filter_of_imp (fun v : Vertex VT ET => v.id == a)
    (fun v : Vertex VT ET => v.id != x) g.vertices ?_]
  · rfl
  · intro v hv
    have hva : v.id = a := by simpa using hv
    simp [hva, hax]

theorem pair_delete_vertex (g : Graph VT ET) (x : Nat)
    (hd : g.distinctTargets) (hp : g.pairInvariant) :
    (g.delete_vertex x).pairInvariant := by
  intro a va hfind d hdm
  by_cases hax : a = x
  · subst hax
    rw [findVertex_delete_vertex_self] at hfind
    cases hfind
  · rw [findVertex_delete_vertex g x a hax] at hfind
    cases hga : g.findVertex a with
    | none => rw [hga] at hfind; cases hfind
    | some w =>
      rw [hga] at hfind
      have h4 : some (@Vertex.mk VT ET w.id w.value
          (remove_from_vec w.edge_directions (fun e => e.to_vertex_id == x)))
          = some va := hfind
      have hweq : va = Vertex.mk w.id w.value
          (remove_from_vec w.edge_directions (fun e => e.to_vertex_id == x)) := by
        injection h4 with h3
        exact h3.symm
      have hdm2 : d ∈ remove_from_vec w.edge_directions
          (fun e => e.to_vertex_id == x) := by
        rw [hweq] at hdm
        exact hdm
      have hdm' : d ∈ w.edge_directions :=
        (sublist_remove_from_vec _ _).subset hdm2
      have hwmem := findVertex_mem g a w hga
      have hdx : d.to_vertex_id ≠ x := by
        have hcount := countP_target_le_one w.edge_directions (hd w hwmem) x
        have := remove_from_vec_no_match w.edge_directions _ hcount d hdm2
        simpa using this
      rcases hp a w hga d hdm' with ⟨vb, hvb, d', hd'm, hd'to, hd'ty, hd'val⟩
      refine ⟨{ vb with edge_directions :=
          remove_from_vec vb.edge_directions (fun e => e.to_vertex_id == x) },
        ?_, d', ?_, hd'to, hd'ty, hd'val⟩
      · rw [findVertex_delete_vertex g x _ hdx, hvb]
        rfl
      · apply mem_remove_from_vec_of_not_match _ _ _ hd'm
        simp [hd'to, hax]

/-- The effect of `delete_edge_direction` on the targeted vertex: scrub the
first direction with the given target. -/
def scrubTo (t : Nat) : Vertex VT ET → Vertex VT ET :=
  fun v => { v with edge_directions :=
      remove_from_vec v.edge_directions (fun e => e.to_vertex_id == t) }

theorem delete_edge_direction_eq (g : Graph VT ET) (a b : Nat) :
    g.delete_edge_direction a b = g.modifyVertex a (scrubTo b) := rfl

theorem modifyFirst_eq_self (l : List (Vertex VT ET)) (i : Nat)
    (f : Vertex VT ET → Vertex VT ET)
    (h : ∀ v, l.find? (fun w => w.id == i) = some v → f v = v) :
    modifyFirst l i f = l := by
  induction l with
  | nil => rfl
  | cons v vs ih =>
    rw [modifyFirst]
    cases hb : (v.id == i) with
    | true =>
      simp only [if_true]
      have hfv : f v = v := h v (by rw [List.find?_cons, hb])
      rw [hfv]
    | false =>
      simp only [Bool.false_eq_true, if_false]
      have h' : ∀ w, vs.find? (fun w => w.id == i) = some w → f w = w := by
        intro w hw
        apply h
        rw [List.find?_cons, hb]
        exact hw
      rw [ih h']

/-- Deleting the `x → x` edge direction is a no-op: under the invariants no
direction targets its own vertex. -/
theorem delete_edge_direction_self_eq (g : Graph VT ET)
    (hd : g.distinctTargets) (hp : g.pairInvariant) (x : Nat) :
    g.delete_edge_direction x x = g := by
  rw [delete_edge_direction_eq, Graph.modifyVertex]
  have hmf : modifyFirst g.vertices x (scrubTo x) = g.vertices := by
    apply modifyFirst_eq_self
    intro v hv
    have hfind : g.findVertex x = some v := hv
    have hnone := no_self_direction g hd hp x v hfind
    have hrm : remove_from_vec v.edge_directions (fun e => e.to_vertex_id == x)
        = v.edge_directions :=
      remove_from_vec_eq_of_no_match _ _ (fun d hdm => by simpa using hnone d hdm)
    rw [scrubTo, hrm]
  rw [hmf]

theorem pair_delete_edge (g : Graph VT ET) (from_id to_id : Nat)
    (hmode : g.type = .Undirected)
    (hd : g.distinctTargets) (hp : g.pairInvariant) :
    (g.delete_edge from_id to_id).pairInvariant := by
  rw [Graph.delete_edge, hmode]
  by_cases hft : from_id = to_id
  · subst hft
    rw [delete_edge_direction_self_eq g hd hp from_id]
    rw [delete_edge_direction_self_eq g hd hp from_id]
    exact hp
  · rw [delete_edge_direction_eq g from_id to_id,
      delete_edge_direction_eq _ to_id from_id]
    have hfrom2 : ((g.modifyVertex from_id (scrubTo to_id)).modifyVertex to_id
        (scrubTo from_id)).findVertex from_id
        = (g.findVertex from_id).map (scrubTo to_id) := by
      rw [Graph.findVertex_modifyVertex_ne _ to_id from_id (scrubTo from_id)
        hft (fun _ => rfl)]
      exact Graph.findVertex_modifyVertex_self g from_id (scrubTo to_id) (fun _ => rfl)
    have hto2 : ((g.modifyVertex from_id (scrubTo to_id)).modifyVertex to_id
        (scrubTo from_id)).findVertex to_id
        = (g.findVertex to_id).map (scrubTo from_id) := by
      rw [Graph.findVertex_modifyVertex_self _ to_id (scrubTo from_id) (fun _ => rfl)]
      rw [Graph.findVertex_modifyVertex_ne g from_id to_id (scrubTo to_id)
        (fun h => hft h.symm) (fun _ => rfl)]
    have hother2 : ∀ x, x ≠ from_id → x ≠ to_id →
        ((g.modifyVertex from_id (scrubTo to_id)).modifyVertex to_id
          (scrubTo from_id)).findVertex x = g.findVertex x := by
      intro x hxf hxt
      rw [Graph.findVertex_modifyVertex_ne _ to_id x (scrubTo from_id) hxt (fun _ => rfl)]
      exact Graph.findVertex_modifyVertex_ne g from_id x (scrubTo to_id) hxf (fun _ => rfl)
    intro a va hfind d hdm
    by_cases haf : a = from_id
    · subst haf
      rw [hfrom2] at hfind
      cases hga : g.findVertex a with
      | none => rw [hga] at hfind; cases hfind
      | some vf =>
        rw [hga] at hfind
        have h4 : some (scrubTo to_id vf) = some va := hfind
        have hva : va = scrubTo to_id vf := by
          injection h4 with h5
          exact h5.symm
        have hdm2 : d ∈ remove_from_vec vf.edge_directions
            (fun e => e.to_vertex_id == to_id) := by
          rw [hva] at hdm
          exact hdm
        have hdmem : d ∈ vf.edge_directions := (sublist_remove_from_vec _ _).subset hdm2
        have hvfmem := findVertex_mem g a vf hga
        have hdto_ne_to : d.to_vertex_id ≠ to_id := by
          have hcount := countP_target_le_one vf.edge_directions (hd vf hvfmem) to_id
          have := remove_from_vec_no_match vf.edge_directions _ hcount d hdm2
          simpa using this
        have hdto_ne_a : d.to_vertex_id ≠ a := no_self_direction g hd hp a vf hga d hdmem
        rcases hp a vf hga d hdmem with ⟨vb, hvb, d', hd'm, hd'to, hd'ty, hd'val⟩
        refine ⟨vb, ?_, d', hd'm, hd'to, hd'ty, hd'val⟩
        rw [hother2 d.to_vertex_id hdto_ne_a hdto_ne_to]
        exact hvb
    · by_cases hat : a = to_id
      · subst hat
        rw [hto2] at hfind
        cases hga : g.findVertex a with
        | none => rw [hga] at hfind; cases hfind
        | some vt =>
          rw [hga] at hfind
          have h4 : some (scrubTo from_id vt) = some va := hfind
          have hva : va = scrubTo from_id vt := by
            injection h4 with h5
            exact h5.symm
          have hdm2 : d ∈ remove_from_vec vt.edge_directions
              (fun e => e.to_vertex_id == from_id) := by
            rw [hva] at hdm
            exact hdm
          have hdmem : d ∈ vt.edge_directions := (sublist_remove_from_vec _ _).subset hdm2
          have hvtmem := findVertex_mem g a vt hga
          have hdto_ne_from : d.to_vertex_id ≠ from_id := by
            have hcount := countP_target_le_one vt.edge_directions (hd vt hvtmem) from_id
            have := remove_from_vec_no_match vt.edge_directions _ hcount d hdm2
            simpa using this
          have hdto_ne_a : d.to_vertex_id ≠ a := no_self_direction g hd hp a vt hga d hdmem
          rcases hp a vt hga d hdmem with ⟨vb, hvb, d', hd'm, hd'to, hd'ty, hd'val⟩
          refine ⟨vb, ?_, d', hd'm, hd'to, hd'ty, hd'val⟩
          rw [hother2 d.to_vertex_id hdto_ne_from hdto_ne_a]
          exact hvb
      · rw [hother2 a haf hat] at hfind
        rcases hp a va hfind d hdm with ⟨vb, hvb, d', hd'm, hd'to, hd'ty, hd'val⟩
        by_cases hbf : d.to_vertex_id = from_id
        · refine ⟨scrubTo to_id vb, ?_, d', ?_, hd'to, hd'ty, hd'val⟩
          · rw [hbf, hfrom2]
            rw [hbf] at hvb
            rw [hvb]
            rfl
          · apply mem_remove_from_vec_of_not_match _ _ _ hd'm
            simp [hd'to, hat]
        · by_cases hbt : d.to_vertex_id = to_id
          · refine ⟨scrubTo from_id vb, ?_, d', ?_, hd'to, hd'ty, hd'val⟩
            · rw [hbt, hto2]
              rw [hbt] at hvb
              rw [hvb]
              rfl
            · apply mem_remove_from_vec_of_not_match _ _ _ hd'm
              simp [hd'to, haf]
          · refine ⟨vb, ?_, d', hd'm, hd'to, hd'ty, hd'val⟩
            rw [hother2 d.to_vertex_id hbf hbt]
            exact hvb

/-- The effect of a successful push in `add_edge_direction` on the source
vertex: append the new direction. -/
def appendDir (t : Nat) (value : Option ET) (k : EdgeDirectionType) :
    Vertex VT ET → Vertex VT ET :=
  fun v => { v with edge_directions :=
      v.edge_directions ++ [{ to_vertex_id := t, value := value, type := k }] }

theorem add_edge_direction_push_eq (g : Graph VT ET) (from_id to_id : Nat)
    (value : Option ET) (t : EdgeDirectionType) (vf : Vertex VT ET)
    (h : g.findVertex from_id = some vf)
    (hd : ∀ d ∈ vf.edge_directions, d.to_vertex_id ≠ to_id) :
    g.add_edge_direction from_id to_id value t
      = (.ok (), g.modifyVertex from_id (appendDir to_id value t)) :=
  add_edge_direction_push g from_id to_id value t vf h hd

theorem pair_add_edge (g : Graph VT ET) (from_id to_id : Nat) (value : Option ET)
    (hmode : g.type = .Undirected) (hne : from_id ≠ to_id)
    (hd : g.distinctTargets) (hp : g.pairInvariant)
    (hok : (g.add_edge from_id to_id value).1 = .ok ()) :
    (g.add_edge from_id to_id value).2.pairInvariant := by
  cases hff : g.findVertex from_id with
  | none =>
    have hres : g.add_edge from_id to_id value = (.error (.VertexNotFound from_id), g) := by
      rw [Graph.add_edge, hmode, add_edge_direction_absent g from_id to_id value .Strong hff]
    rw [hres] at hok
    exact Except.noConfusion hok
  | some vf =>
    by_cases hexf : ∃ d ∈ vf.edge_directions, d.to_vertex_id = to_id
    · have hres1 : g.add_edge from_id to_id value
          = g.add_edge_direction to_id from_id value .Weak := by
        rw [Graph.add_edge, hmode,
          add_edge_direction_noop g from_id to_id value .Strong vf hff hexf]
      cases hft : g.findVertex to_id with
      | none =>
        rw [hres1, add_edge_direction_absent g to_id from_id value .Weak hft] at hok
        exact Except.noConfusion hok
      | some vt =>
        by_cases hext : ∃ d ∈ vt.edge_directions, d.to_vertex_id = from_id
        · rw [hres1, add_edge_direction_noop g to_id from_id value .Weak vt hft hext]
          exact hp
        · exfalso
          rcases hexf with ⟨d0, hd0m, hd0to⟩
          rcases hp from_id vf hff d0 hd0m with ⟨vb, hvb, d', hd'm, hd'to, h1, h2⟩
          rw [hd0to, hft] at hvb
          have hvteq : vt = vb := by injection hvb
          rw [← hvteq] at hd'm
          exact hext ⟨d', hd'm, hd'to⟩
    · push_neg at hexf
      have h1 := add_edge_direction_push_eq g from_id to_id value .Strong vf hff hexf
      have hres1 : g.add_edge from_id to_id value
          = (g.modifyVertex from_id
              (appendDir to_id value .Strong)).add_edge_direction
            to_id from_id value .Weak := by
        rw [Graph.add_edge, hmode, h1]
      have hg1to : (g.modifyVertex from_id
          (appendDir to_id value .Strong)).findVertex to_id = g.findVertex to_id :=
        Graph.findVertex_modifyVertex_ne g from_id to_id (appendDir to_id value .Strong)
          (fun h => hne h.symm) (fun _ => rfl)
      cases hft : g.findVertex to_id with
      | none =>
        have h2 := add_edge_direction_absent _ to_id from_id value .Weak
          (by rw [hg1to, hft])
        rw [hres1, h2] at hok
        exact Except.noConfusion hok
      | some vt =>
        by_cases hext : ∃ d ∈ vt.edge_directions, d.to_vertex_id = from_id
        · exfalso
          rcases hext with ⟨d1, hd1m, hd1to⟩
          rcases hp to_id vt hft d1 hd1m with ⟨vb, hvb, d2, hd2m, hd2to, h3, h4⟩
          rw [hd1to, hff] at hvb
          have hvfeq : vf = vb := by injection hvb
          rw [← hvfeq] at hd2m
          exact hexf d2 hd2m hd2to
        · push_neg at hext
          have hg1findto : (g.modifyVertex from_id
              (appendDir to_id value .Strong)).findVertex to_id = some vt := by
            rw [hg1to, hft]
          have h2 := add_edge_direction_push_eq _ to_id from_id value .Weak vt
            hg1findto hext
          have hres : g.add_edge from_id to_id value
              = (.ok (), (g.modifyVertex from_id
                  (appendDir to_id value .Strong)).modifyVertex to_id
                  (appendDir from_id value .Weak)) := by
            rw [hres1, h2]
          rw [hres]
          have hfrom2 : ((g.modifyVertex from_id
              (appendDir to_id value .Strong)).modifyVertex to_id
              (appendDir from_id value .Weak)).findVertex from_id
              = some (appendDir to_id value .Strong vf) := by
            rw [Graph.findVertex_modifyVertex_ne _ to_id from_id
              (appendDir from_id value .Weak) hne (fun _ => rfl)]
            rw [Graph.findVertex_modifyVertex_self g from_id
              (appendDir to_id value .Strong) (fun _ => rfl), hff]
            rfl
          have hto2 : ((g.modifyVertex from_id
              (appendDir to_id value .Strong)).modifyVertex to_id
              (appendDir from_id value .Weak)).findVertex to_id
              = some (appendDir from_id value .Weak vt) := by
            rw [Graph.findVertex_modifyVertex_self _ to_id
              (appendDir from_id value .Weak) (fun _ => rfl)]
            rw [hg1to, hft]
            rfl
          have hother2 : ∀ x, x ≠ from_id → x ≠ to_id →
              ((g.modifyVertex from_id
                (appendDir to_id value .Strong)).modifyVertex to_id
                (appendDir from_id value .Weak)).findVertex x = g.findVertex x := by
            intro x hxf hxt
            rw [Graph.findVertex_modifyVertex_ne _ to_id x
              (appendDir from_id value .Weak) hxt (fun _ => rfl)]
            exact Graph.findVertex_modifyVertex_ne g from_id x
              (appendDir to_id value .Strong) hxf (fun _ => rfl)
          intro a va hfind d hdm
          by_cases haf : a = from_id
          · subst haf
            rw [hfrom2] at hfind
            have hva : va = appendDir to_id value .Strong vf := by
              injection hfind with h5
              exact h5.symm
            have hdm2 : d ∈ vf.edge_directions ++
                [{ to_vertex_id := to_id, value := value, type := .Strong }] := by
              rw [hva] at hdm
              exact hdm
            rcases List.mem_append.mp hdm2 with hold | hnew
            · rcases hp a vf hff d hold with ⟨vb, hvb, d', hd'm, hd'to, hd'ty, hd'val⟩
              have hdne_f : d.to_vertex_id ≠ a := no_self_direction g hd hp a vf hff d hold
              by_cases hdt : d.to_vertex_id = to_id
              · exact absurd hdt (hexf d hold)
              · refine ⟨vb, ?_, d', hd'm, hd'to, hd'ty, hd'val⟩
                rw [hother2 d.to_vertex_id hdne_f hdt]
                exact hvb
            · have hde : d = { to_vertex_id := to_id, value := value, type := .Strong } :=
                List.mem_singleton.mp hnew
              refine ⟨appendDir a value .Weak vt, ?_,
                { to_vertex_id := a, value := value, type := .Weak }, ?_, rfl, ?_, ?_⟩
              · rw [hde]
                exact hto2
              · exact List.mem_append_right _ (List.mem_singleton_self _)
              · rw [hde]
                rfl
              · rw [hde]
          · by_cases hat : a = to_id
            · subst hat
              rw [hto2] at hfind
              have hva : va = appendDir from_id value .Weak vt := by
                injection hfind with h5
                exact h5.symm
              have hdm2 : d ∈ vt.edge_directions ++
                  [{ to_vertex_id := from_id, value := value, type := .Weak }] := by
                rw [hva] at hdm
                exact hdm
              rcases List.mem_append.mp hdm2 with hold | hnew
              · rcases hp a vt hft d hold with ⟨vb, hvb, d', hd'm, hd'to, hd'ty, hd'val⟩
                have hdne_t : d.to_vertex_id ≠ a := no_self_direction g hd hp a vt hft d hold
                by_cases hdf : d.to_vertex_id = from_id
                · exact absurd hdf (hext d hold)
                · refine ⟨vb, ?_, d', hd'm, hd'to, hd'ty, hd'val⟩
                  rw [hother2 d.to_vertex_id hdf hdne_t]
                  exact hvb
              · have hde : d = { to_vertex_id := from_id, value := value, type := .Weak } :=
                  List.mem_singleton.mp hnew
                refine ⟨appendDir a value .Strong vf, ?_,
                  { to_vertex_id := a, value := value, type := .Strong }, ?_, rfl, ?_, ?_⟩
                · rw [hde]
                  exact hfrom2
                · exact List.mem_append_right _ (List.mem_singleton_self _)
                · rw [hde]
                  rfl
                · rw [hde]
            · rw [hother2 a haf hat] at hfind
              rcases hp a va hfind d hdm with ⟨vb, hvb, d', hd'm, hd'to, hd'ty, hd'val⟩
              by_cases hbf : d.to_vertex_id = from_id
              · refine ⟨appendDir to_id value .Strong vf, ?_, d', ?_, hd'to, hd'ty, hd'val⟩
                · rw [hbf]
                  exact hfrom2
                · apply List.mem_append_left
                  rw [hbf, hff] at hvb
                  have hvfeq : vf = vb := by injection hvb
                  rw [← hvfeq] at hd'm
                  exact hd'm
              · by_cases hbt : d.to_vertex_id = to_id
                · refine ⟨appendDir from_id value .Weak vt, ?_, d', ?_, hd'to, hd'ty, hd'val⟩
                  · rw [hbt]
                    exact hto2
                  · apply List.mem_append_left
                    rw [hbt, hft] at hvb
                    have hvteq : vt = vb := by injection hvb
                    rw [← hvteq] at hd'm
                    exact hd'm
                · refine ⟨vb, ?_, d', hd'm, hd'to, hd'ty, hd'val⟩
                  rw [hother2 d.to_vertex_id hbf hbt]
                  exact hvb

/-- One public API call in a sequence where every `add_edge` has distinct
endpoints and succeeds — the restriction the amended C1 needs; deletions
and vertex insertions are unrestricted (failing `add_vertex` included,
which leaves the state unchanged). -/
inductive ApiStepOk : Graph VT ET → Graph VT ET → Prop where
  | add_vertex (g : Graph VT ET) (id : Nat) (value : Option VT) :
      ApiStepOk g (g.add_vertex (Vertex.new id value)).2
  | delete_vertex (g : Graph VT ET) (id : Nat) :
      ApiStepOk g (g.delete_vertex id)
  | add_edge (g : Graph VT ET) (from_id to_id : Nat) (value : Option ET)
      (hne : from_id ≠ to_id)
      (hok : (g.add_edge from_id to_id value).1 = .ok ()) :
      ApiStepOk g (g.add_edge from_id to_id value).2
  | delete_edge (g : Graph VT ET) (from_id to_id : Nat) :
      ApiStepOk g (g.delete_edge from_id to_id)

/-- Undirected graphs reachable from `new(Undirected)` by such
sequences. -/
inductive ReachableOk : Graph VT ET → Prop where
  | new : ReachableOk (Graph.new VT ET .Undirected)
  | step {g g' : Graph VT ET} : ReachableOk g → ApiStepOk g g' → ReachableOk g'

/-- Bundle of invariants maintained along restricted sequences: distinct
vertex ids, undirected mode, distinct targets per list, and the
Strong/Weak pairing. -/
def Graph.wfUndirected (g : Graph VT ET) : Prop :=
  g.nodupIds ∧ g.type = .Undirected ∧ g.distinctTargets ∧ g.pairInvariant

theorem reachableOk_wf (g : Graph VT ET) (h : ReachableOk g) : g.wfUndirected := by
  induction h with
  | new =>
    refine ⟨?_, rfl, ?_, ?_⟩
    · simp [Graph.nodupIds, Graph.new]
    · intro v hv
      simp [Graph.new] at hv
    · intro a va hfind d hdm
      exact Option.noConfusion hfind
  | step hr hs ih =>
    rcases ih with ⟨hnodup, hmode, hdist, hpair⟩
    cases hs with
    | add_vertex id value =>
      exact ⟨nodupIds_add_vertex _ id value hnodup,
        by rw [type_add_vertex]; exact hmode,
        distinctTargets_add_vertex _ id value hdist,
        pair_add_vertex _ id value hpair⟩
    | delete_vertex id =>
      exact ⟨nodupIds_delete_vertex _ id hnodup,
        by rw [type_delete_vertex]; exact hmode,
        distinctTargets_delete_vertex _ id hdist,
        pair_delete_vertex _ id hdist hpair⟩
    | add_edge from_id to_id value hne hok =>
      exact ⟨nodupIds_add_edge _ from_id to_id value hnodup,
        by rw [type_add_edge]; exact hmode,
        distinctTargets_add_edge _ from_id to_id value hdist,
        pair_add_edge _ from_id to_id value hmode hne hdist hpair hok⟩
    | delete_edge from_id to_id =>
      exact ⟨nodupIds_delete_edge _ from_id to_id hnodup,
        by rw [type_delete_edge]; exact hmode,
        distinctTargets_delete_edge _ from_id to_id hdist,
        pair_delete_edge _ from_id to_id hmode hdist hpair⟩

/-- C1 counterexample: the claim fails for unrestricted sequences — from
`new(Undirected)`, `add_vertex 1` then the self-loop `add_edge 1 1`
SUCCEEDS yet leaves a `Strong 1 → 1` direction with no `Weak` mirror
anywhere in the graph. -/
theorem strong_weak_pairing_counterexample :
    ((((Graph.new Unit Unit .Undirected).add_vertex
        (Vertex.new 1 none)).2.add_edge 1 1 none).1 = .ok ()) ∧
    (∃ v ∈ ((((Graph.new Unit Unit .Undirected).add_vertex
        (Vertex.new 1 none)).2.add_edge 1 1 none).2).vertices,
      ∃ d ∈ v.edge_directions, d.to_vertex_id = 1 ∧ d.type = .Strong) ∧
    (∀ v ∈ ((((Graph.new Unit Unit .Undirected).add_vertex
        (Vertex.new 1 none)).2.add_edge 1 1 none).2).vertices,
      ∀ d ∈ v.edge_directions, ¬(d.to_vertex_id = 1 ∧ d.type = .Weak)) :=
  ⟨rfl, by decide, by decide⟩

/-- C1 amended: in an undirected graph reachable from `new(Undirected)` by
a sequence of API operations in which every `add_edge` call has distinct
endpoints and succeeds, every stored edge direction `a → b` has exactly
one mirror direction `b → a` of the opposite kind (`Strong` ↔ `Weak`) with
the same shared payload — the pair is created and destroyed atomically by
the same logical edge operation. -/
theorem strong_weak_pairing (g : Graph VT ET) (h : ReachableOk g)
    (a : Nat) (va : Vertex VT ET) (hfind : g.findVertex a = some va)
    (d : EdgeDirection ET) (hdm : d ∈ va.edge_directions) :
    ∃ vb, g.findVertex d.to_vertex_id = some vb ∧
      ∃ d' ∈ vb.edge_directions, d'.to_vertex_id = a ∧
        d'.type = oppositeType d.type ∧ d'.value = d.value ∧
        ∀ d2 ∈ vb.edge_directions, d2.to_vertex_id = a → d2 = d' := by
  rcases reachableOk_wf g h with ⟨hnodup, hmode, hdist, hpair⟩
  rcases hpair a va hfind d hdm with ⟨vb, hvb, d', hd'm, hd'to, hd'ty, hd'val⟩
  refine ⟨vb, hvb, d', hd'm, hd'to, hd'ty, hd'val, ?_⟩
  intro d2 hd2m hd2to
  have hvbmem := findVertex_mem g _ vb hvb
  exact List.inj_on_of_nodup_map (hdist vb hvbmem) hd2m hd'm (by rw [hd2to, hd'to])

/-- Witness for the amended C1: in the graph built by `add_vertex 1`,
`add_vertex 2`, `add_edge 1 2` the Strong direction `1 → 2` has its unique
Weak mirror `2 → 1`. -/
theorem strong_weak_pairing_witness :
    ∃ vb, (((((Graph.new Unit Unit .Undirected).add_vertex
          (Vertex.new 1 none)).2.add_vertex
          (Vertex.new 2 none)).2.add_edge 1 2 none).2).findVertex
        (({ to_vertex_id := 2, value := none, type := .Strong } :
          EdgeDirection Unit).to_vertex_id) = some vb ∧
      ∃ d' ∈ vb.edge_directions, d'.to_vertex_id = 1 ∧
        d'.type = oppositeType ({ to_vertex_id := 2, value := none, type := .Strong } :
          EdgeDirection Unit).type ∧
        d'.value = ({ to_vertex_id := 2, value := none, type := .Strong } :
          EdgeDirection Unit).value ∧
        ∀ d2 ∈ vb.edge_directions, d2.to_vertex_id = 1 → d2 = d' :=
  strong_weak_pairing _
    (ReachableOk.step
      (ReachableOk.step
        (ReachableOk.step ReachableOk.new (ApiStepOk.add_vertex _ 1 none))
        (ApiStepOk.add_vertex _ 2 none))
      (ApiStepOk.add_edge _ 1 2 none (by decide) rfl))
    1
    { id := 1, value := none, edge_directions :=
        [{ to_vertex_id := 2, value := none, type := .Strong }] }
    rfl
    { to_vertex_id := 2, value := none, type := .Strong }
    (by decide)

/-! Claims C4 and C7: breadth-first traversal.  The loop is defined by
well-founded recursion, so its branch behaviour is captured by four
rewrite equations first. -/

theorem bfsLoop_nil (g : Graph VT ET) (visited : List Nat) :
    g.bfsLoop [] visited = [] := by
  rw [Graph.bfsLoop]

theorem bfsLoop_cons_none (g : Graph VT ET) (id : Nat) (rest visited : List Nat)
    (h : g.findVertex id = none) :
    g.bfsLoop (id :: rest) visited = g.bfsLoop rest visited := by
  rw [Graph.bfsLoop, h]

theorem bfsLoop_cons_visited (g : Graph VT ET) (id : Nat) (rest visited : List Nat)
    (v : Vertex VT ET) (h : g.findVertex id = some v)
    (hv : visited.contains id = true) :
    g.bfsLoop (id :: rest) visited = g.bfsLoop rest visited := by
  have hv' : id ∈ visited := by simpa using hv
  rw [Graph.bfsLoop, h]
  simp [hv']

theorem bfsLoop_cons_new (g : Graph VT ET) (id : Nat) (rest visited : List Nat)
    (v : Vertex VT ET) (h : g.findVertex id = some v)
    (hv : visited.contains id = false) :
    g.bfsLoop (id :: rest) visited
      = (id, v.value,
          (v.edge_directions.filterMap (fun e => g.findVertex e.to_vertex_id)).map
            Vertex.id)
        :: g.bfsLoop
          (rest ++ ((v.edge_directions.filterMap
              (fun e => g.findVertex e.to_vertex_id)).filter
            (fun w => !((id :: visited).contains w.id))).map Vertex.id)
          (id :: visited) := by
  have hv' : id ∉ visited := by simpa using hv
  rw [Graph.bfsLoop, h]
  simp [hv']

/-- One traversal step: a live vertex `a` holds a direction whose target
`b` is itself live (dangling targets are filtered out by the loop). -/
def Graph.stepRel (g : Graph VT ET) (a b : Nat) : Prop :=
  ∃ va, g.findVertex a = some va ∧ (∃ d ∈ va.edge_directions, d.to_vertex_id = b) ∧
    ∃ vb, g.findVertex b = some vb

/-- Every record the loop emits is the popped vertex's id, its value, and
ALL its resolved neighbour ids in adjacency-list order. -/
theorem bfsLoop_records (g : Graph VT ET) (queue visited : List Nat) :
    ∀ r ∈ g.bfsLoop queue visited,
      ∃ v, g.findVertex r.1 = some v ∧ r.2.1 = v.value ∧
        r.2.2 = (v.edge_directions.filterMap
          (fun e => g.findVertex e.to_vertex_id)).map Vertex.id := by
  induction queue, visited using Graph.bfsLoop.induct g with
  | case1 visited =>
    intro r hr
    rw [bfsLoop_nil] at hr
    cases hr
  | case2 visited id rest hfind ih =>
    intro r hr
    rw [bfsLoop_cons_none g id rest visited hfind] at hr
    exact ih r hr
  | case3 visited id rest v hfind hv ih =>
    intro r hr
    rw [bfsLoop_cons_visited g id rest visited v hfind hv] at hr
    exact ih r hr
  | case4 visited id rest v hfind hv ih =>
    intro r hr
    rw [bfsLoop_cons_new g id rest visited v hfind (by simpa using hv)] at hr
    rcases List.mem_cons.mp hr with rfl | hr'
    · exact ⟨v, hfind, rfl, rfl⟩
    · exact ih r hr'

/-- Soundness carrier: any predicate holding on the queue and closed under
the step relation holds on every emitted id. -/
theorem bfsLoop_sound (g : Graph VT ET) (R : Nat → Prop)
    (hclosed : ∀ i j, R i → g.stepRel i j → R j) (queue visited : List Nat) :
    (∀ q ∈ queue, R q) → ∀ r ∈ g.bfsLoop queue visited, R r.1 := by
  induction queue, visited using Graph.bfsLoop.induct g with
  | case1 visited =>
    intro _ r hr
    rw [bfsLoop_nil] at hr
    cases hr
  | case2 visited id rest hfind ih =>
    intro hq r hr
    rw [bfsLoop_cons_none g id rest visited hfind] at hr
    exact ih (fun q hq' => hq q (List.mem_cons_of_mem _ hq')) r hr
  | case3 visited id rest v hfind hv ih =>
    intro hq r hr
    rw [bfsLoop_cons_visited g id rest visited v hfind hv] at hr
    exact ih (fun q hq' => hq q (List.mem_cons_of_mem _ hq')) r hr
  | case4 visited id rest v hfind hv ih =>
    intro hq r hr
    rw [bfsLoop_cons_new g id rest visited v hfind (by simpa using hv)] at hr
    rcases List.mem_cons.mp hr with rfl | hr'
    · exact hq id (List.mem_cons_self _ _)
    · refine ih ?_ r hr'
      intro q hq'
      rcases List.mem_append.mp hq' with hq1 | hq2
      · exact hq q (List.mem_cons_of_mem _ hq1)
      · rcases List.mem_map.mp hq2 with ⟨w, hw, rfl⟩
        have hw' : w ∈ v.edge_directions.filterMap
            (fun e => g.findVertex e.to_vertex_id) := List.mem_of_mem_filter hw
        rcases List.mem_filterMap.mp hw' with ⟨d, hdm, hde⟩
        have hwid : w.id = d.to_vertex_id := findVertex_id g _ w hde
        apply hclosed id w.id (hq id (List.mem_cons_self _ _))
        refine ⟨v, hfind, ⟨d, hdm, hwid.symm⟩, ⟨w, ?_⟩⟩
        rw [hwid]
        exact hde

/-- Emitted ids are pairwise distinct and never already-visited. -/
theorem bfsLoop_ids_nodup_fresh (g : Graph VT ET) (queue visited : List Nat) :
    ((g.bfsLoop queue visited).map (fun r => r.1)).Nodup ∧
      ∀ r ∈ g.bfsLoop queue visited, r.1 ∉ visited := by
  induction queue, visited using Graph.bfsLoop.induct g with
  | case1 visited =>
    rw [bfsLoop_nil]
    exact ⟨List.nodup_nil, by intro r hr; cases hr⟩
  | case2 visited id rest hfind ih =>
    rw [bfsLoop_cons_none g id rest visited hfind]
    exact ih
  | case3 visited id rest v hfind hv ih =>
    rw [bfsLoop_cons_visited g id rest visited v hfind hv]
    exact ih
  | case4 visited id rest v hfind hv ih =>
    rw [bfsLoop_cons_new g id rest visited v hfind (by simpa using hv)]
    rcases ih with ⟨ihnodup, ihfresh⟩
    constructor
    · simp only [List.map_cons]
      rw [List.nodup_cons]
      refine ⟨?_, ihnodup⟩
      intro hcontra
      rcases List.mem_map.mp hcontra with ⟨r, hr, hrid⟩
      have hfr := ihfresh r hr
      rw [hrid] at hfr
      exact hfr (List.mem_cons_self _ _)
    · intro r hr
      rcases List.mem_cons.mp hr with rfl | hr'
      · simpa using hv
      · intro hcontra
        exact ihfresh r hr' (List.mem_cons_of_mem _ hcontra)

/-- Completeness: with a live queue and the closure invariant (every live
neighbour of a visited vertex is visited or queued), every vertex
reachable from the queue or the visited set ends up visited or emitted. -/
theorem bfsLoop_complete (g : Graph VT ET) (queue visited : List Nat) :
    (∀ q ∈ queue, ∃ v, g.findVertex q = some v) →
    (∀ i ∈ visited, ∀ j, g.stepRel i j → j ∈ visited ∨ j ∈ queue) →
    ∀ q j, (q ∈ queue ∨ q ∈ visited) → Relation.ReflTransGen g.stepRel q j →
      j ∈ visited ∨ j ∈ (g.bfsLoop queue visited).map (fun r => r.1) := by
  induction queue, visited using Graph.bfsLoop.induct g with
  | case1 visited =>
    intro hlive hinv q j hq hreach
    left
    rcases hq with hq | hq
    · cases hq
    · induction hreach with
      | refl => exact hq
      | tail hsteps hstep ih2 =>
        rcases hinv _ ih2 _ hstep with h | h
        · exact h
        · cases h
  | case2 visited id rest hfind ih =>
    intro hlive hinv q j hq hreach
    rcases hlive id (List.mem_cons_self _ _) with ⟨v, hv⟩
    rw [hfind] at hv
    cases hv
  | case3 visited id rest v hfind hv ih =>
    intro hlive hinv q j hq hreach
    rw [bfsLoop_cons_visited g id rest visited v hfind hv]
    have hvmem : id ∈ visited := by simpa using hv
    apply ih
    · intro q' hq'
      exact hlive q' (List.mem_cons_of_mem _ hq')
    · intro i hi j' hstep
      rcases hinv i hi j' hstep with h | h
      · exact Or.inl h
      · rcases List.mem_cons.mp h with rfl | h'
        · exact Or.inl hvmem
        · exact Or.inr h'
    · rcases hq with hq | hq
      · rcases List.mem_cons.mp hq with rfl | h'
        · exact Or.inr hvmem
        · exact Or.inl h'
      · exact Or.inr hq
    · exact hreach
  | case4 visited id rest v hfind hv ih =>
    intro hlive hinv q j hq hreach
    rw [bfsLoop_cons_new g id rest visited v hfind (by simpa using hv)]
    have hmain := ih ?_ ?_ q j ?_ hreach
    · rcases hmain with h | h
      · rcases List.mem_cons.mp h with rfl | h'
        · right
          simp only [List.map_cons]
          exact List.mem_cons_self _ _
        · exact Or.inl h'
      · right
        simp only [List.map_cons]
        exact List.mem_cons_of_mem _ h
    · intro q' hq'
      rcases List.mem_append.mp hq' with hq1 | hq2
      · exact hlive q' (List.mem_cons_of_mem _ hq1)
      · rcases List.mem_map.mp hq2 with ⟨w, hw, rfl⟩
        have hw' : w ∈ v.edge_directions.filterMap
            (fun e => g.findVertex e.to_vertex_id) := List.mem_of_mem_filter hw
        rcases List.mem_filterMap.mp hw' with ⟨d, hdm, hde⟩
        have hwid : w.id = d.to_vertex_id := findVertex_id g _ w hde
        exact ⟨w, by rw [hwid]; exact hde⟩
    · intro i hi j' hstep
      rcases List.mem_cons.mp hi with rfl | hi'
      · rcases hstep with ⟨va, hva, ⟨d, hdm, hdto⟩, ⟨vb, hvb⟩⟩
        have hveq : v = va := by
          rw [hfind] at hva
          injection hva
        rw [← hveq] at hdm
        have hwmem : vb ∈ v.edge_directions.filterMap
            (fun e => g.findVertex e.to_vertex_id) := by
          apply List.mem_filterMap.mpr
          exact ⟨d, hdm, by rw [hdto]; exact hvb⟩
        have hbid : vb.id = j' := by
          have := findVertex_id g j' vb hvb
          exact this
        by_cases hjv : j' ∈ i :: visited
        · exact Or.inl hjv
        · right
          apply List.mem_append_right
          apply List.mem_map.mpr
          refine ⟨vb, ?_, hbid⟩
          apply List.mem_filter.mpr
          refine ⟨hwmem, ?_⟩
          rw [hbid]
          simpa using hjv
      · rcases hinv i hi' j' hstep with h | h
        · exact Or.inl (List.mem_cons_of_mem _ h)
        · rcases List.mem_cons.mp h with rfl | h'
          · exact Or.inl (List.mem_cons_self _ _)
          · exact Or.inr (List.mem_append_left _ h')
    · rcases hq with hq | hq
      · rcases List.mem_cons.mp hq with rfl | h'
        · exact Or.inr (List.mem_cons_self _ _)
        · exact Or.inl (List.mem_append_left _ h')
      · exact Or.inr (List.mem_cons_of_mem _ hq)

/-- C7: for every vertex visited by `bfs`, the emitted record carries the
vertex's value and ALL resolved (live) neighbour identifiers in
adjacency-list order — already-visited neighbours included. -/
theorem bfs_neighbour_ids (g : Graph VT ET) (start_id : Nat)
    (result : List (Nat × Option VT × List Nat)) (h : g.bfs start_id = .ok result) :
    ∀ r ∈ result, ∃ v, g.findVertex r.1 = some v ∧ r.2.1 = v.value ∧
      r.2.2 = (v.edge_directions.filterMap
        (fun e => g.findVertex e.to_vertex_id)).map Vertex.id := by
  cases hfind : g.findVertex start_id with
  | none =>
    rw [Graph.bfs, hfind] at h
    cases h
  | some v =>
    rw [Graph.bfs, hfind] at h
    have hres : g.bfsLoop [start_id] [] = result := by injection h
    rw [← hres]
    exact bfsLoop_records g [start_id] []

/-- Undirected chain `1 — 2 — 3` (with its Strong/Weak mirror pairs), the
spec's neighbour-completeness example. -/
def chainGraph : Graph Unit Unit :=
  { vertices :=
      [{ id := 1, value := none, edge_directions :=
          [{ to_vertex_id := 2, value := none, type := .Strong }] },
       { id := 2, value := none, edge_directions :=
          [{ to_vertex_id := 1, value := none, type := .Weak },
           { to_vertex_id := 3, value := none, type := .Strong }] },
       { id := 3, value := none, edge_directions :=
          [{ to_vertex_id := 2, value := none, type := .Weak }] }],
    type := .Undirected }

/-- Concrete run: `bfs 1` on the chain visits `1, 2, 3` and the record for
vertex 2 lists neighbour ids `[1, 3]`. -/
theorem chainGraph_bfs :
    chainGraph.bfs 1 = .ok [(1, none, [2]), (2, none, [1, 3]), (3, none, [2])] := by
  have e1 : chainGraph.bfsLoop [1] [] = (1, none, [2]) :: chainGraph.bfsLoop [2] [1] := by
    rw [bfsLoop_cons_new chainGraph 1 [] []
      { id := 1, value := none, edge_directions :=
        [{ to_vertex_id := 2, value := none, type := .Strong }] } rfl rfl]
    rfl
  have e2 : chainGraph.bfsLoop [2] [1]
      = (2, none, [1, 3]) :: chainGraph.bfsLoop [3] [2, 1] := by
    rw [bfsLoop_cons_new chainGraph 2 [] [1]
      { id := 2, value := none, edge_directions :=
        [{ to_vertex_id := 1, value := none, type := .Weak },
         { to_vertex_id := 3, value := none, type := .Strong }] } rfl rfl]
    rfl
  have e3 : chainGraph.bfsLoop [3] [2, 1]
      = (3, none, [2]) :: chainGraph.bfsLoop [] [3, 2, 1] := by
    rw [bfsLoop_cons_new chainGraph 3 [] [2, 1]
      { id := 3, value := none, edge_directions :=
        [{ to_vertex_id := 2, value := none, type := .Weak }] } rfl rfl]
    rfl
  show Except.ok (chainGraph.bfsLoop [1] []) = _
  rw [e1, e2, e3, bfsLoop_nil]

/-- Witness for C7 on the chain: every record of `bfs 1` — the record
`(2, none, [1, 3])` included, neighbour 1 being already visited — lists
all resolved neighbours of its vertex in adjacency-list order. -/
theorem bfs_neighbour_ids_witness :
    ∃ v, chainGraph.findVertex
        ((2 : Nat), (none : Option Unit), [(1 : Nat), 3]).1 = some v ∧
      ((2 : Nat), (none : Option Unit), [(1 : Nat), 3]).2.1 = v.value ∧
      ((2 : Nat), (none : Option Unit), [(1 : Nat), 3]).2.2
        = (v.edge_directions.filterMap
            (fun e => chainGraph.findVertex e.to_vertex_id)).map Vertex.id :=
  bfs_neighbour_ids chainGraph 1
    [(1, none, [2]), (2, none, [1, 3]), (3, none, [2])] chainGraph_bfs
    (2, none, [1, 3]) (by decide)

/-- C4: `bfs start_id` fails with `VertexNotFound start_id` exactly when
the start vertex is absent; when present it succeeds, the emitted vertex
ids are pairwise distinct, and they are exactly the ids reachable from the
start along edge directions whose targets exist (so vertices of
disconnected components never appear). -/
theorem bfs_spec (g : Graph VT ET) (start_id : Nat) :
    (g.findVertex start_id = none →
      g.bfs start_id = .error (.VertexNotFound start_id)) ∧
    (∀ v, g.findVertex start_id = some v → ∃ result, g.bfs start_id = .ok result) ∧
    (∀ result, g.bfs start_id = .ok result →
      ((result.map (fun r => r.1)).Nodup ∧
        ∀ i, (i ∈ result.map (fun r => r.1) ↔
          Relation.ReflTransGen g.stepRel start_id i))) := by
  refine ⟨?_, ?_, ?_⟩
  · intro h
    rw [Graph.bfs, h]
  · intro v hv
    rw [Graph.bfs, hv]
    exact ⟨_, rfl⟩
  · intro result hres
    cases hfind : g.findVertex start_id with
    | none =>
      rw [Graph.bfs, hfind] at hres
      cases hres
    | some v =>
      rw [Graph.bfs, hfind] at hres
      have hres' : g.bfsLoop [start_id] [] = result := by injection hres
      constructor
      · rw [← hres']
        exact (bfsLoop_ids_nodup_fresh g [start_id] []).1
      · intro i
        constructor
        · intro hi
          rw [← hres'] at hi
          rcases List.mem_map.mp hi with ⟨r, hr, hrid⟩
          have hq0 : ∀ q ∈ [start_id], Relation.ReflTransGen g.stepRel start_id q := by
            intro q hq
            rcases List.mem_cons.mp hq with rfl | h0
            · exact Relation.ReflTransGen.refl
            · cases h0
          have hS := bfsLoop_sound g (Relation.ReflTransGen g.stepRel start_id)
            (fun a b ha hab => Relation.ReflTransGen.tail ha hab) [start_id] [] hq0 r hr
          rw [← hrid]
          exact hS
        · intro hreach
          have hlive : ∀ q ∈ [start_id], ∃ w, g.findVertex q = some w := by
            intro q hq
            rcases List.mem_cons.mp hq with rfl | h0
            · exact ⟨v, hfind⟩
            · cases h0
          have hinv : ∀ i0 ∈ ([] : List Nat), ∀ j, g.stepRel i0 j →
              j ∈ ([] : List Nat) ∨ j ∈ [start_id] := by
            intro i0 hi0
            cases hi0
          have hcomp := bfsLoop_complete g [start_id] [] hlive hinv start_id i
            (Or.inl (List.mem_cons_self _ _)) hreach
          rcases hcomp with h | h
          · cases h
          · rw [← hres']
            exact h

/-- Witness for C4 on the chain graph: the result of `bfs 1` has pairwise
distinct ids, and an id is emitted exactly when it is reachable from 1. -/
theorem bfs_spec_witness :
    (([((1 : Nat), (none : Option Unit), [(2 : Nat)]),
        (2, none, [1, 3]), (3, none, [2])].map (fun r => r.1)).Nodup ∧
      ∀ i, (i ∈ [((1 : Nat), (none : Option Unit), [(2 : Nat)]),
          (2, none, [1, 3]), (3, none, [2])].map (fun r => r.1) ↔
        Relation.ReflTransGen chainGraph.stepRel 1 i)) :=
  (bfs_spec chainGraph 1).2.2
    [(1, none, [2]), (2, none, [1, 3]), (3, none, [2])] chainGraph_bfs

/-! Claim C2: the deserialize→serialize round trip.  As stated it is
false: a document containing both `1 2` and `2 1` deserializes (the second
line is a silent duplicate no-op) but serializes back to a single edge
line, losing `2 1` from the line set. -/

/-- The graph the counterexample document deserializes to. -/
def counterexampleGraph : Graph (List Char) (List Char) :=
  { vertices :=
      [{ id := 1, value := none, edge_directions :=
          [{ to_vertex_id := 2, value := none, type := .Strong }] },
       { id := 2, value := none, edge_directions :=
          [{ to_vertex_id := 1, value := none, type := .Weak }] }],
    type := .Undirected }

/-- C2 counterexample: the document `1, 2, #, 1 2, 2 1` deserializes
successfully, but serializing the result loses the line `2 1`: the line
sets differ. -/
theorem roundtrip_counterexample :
    deserialize (["1", "2", "#", "1 2", "2 1"].map String.toList)
      = .ok counterexampleGraph ∧
    "2 1".toList ∈ (["1", "2", "#", "1 2", "2 1"].map String.toList) ∧
    "2 1".toList ∉ counterexampleGraph.serialize :=
  ⟨rfl, by decide, by decide⟩

/-- Pure tokenizing part of `parse_edge`: the two leading ids and the
optional value, without the graph-membership checks. -/
def parse_edge_ids (line : List Char) : Option (Nat × Nat × Option (List Char)) :=
  match tokens line with
  | [] => none
  | tok1 :: rest1 =>
    match parseU32 tok1 with
    | none => none
    | some a =>
      match rest1 with
      | [] => none
      | tok2 :: rest2 =>
        match parseU32 tok2 with
        | none => none
        | some b =>
          let ev := joinSp rest2
          some (a, b, if ev.isEmpty then none else some ev)

/-- The edge line `serialize` writes for a `Strong` direction from `a` to
`b` carrying `val`. -/
def edgeLineOut (a b : Nat) (val : Option (List Char)) : List Char :=
  match val with
  | some edge_value => natChars a ++ ' ' :: (natChars b ++ ' ' :: edge_value)
  | none => natChars a ++ ' ' :: natChars b

theorem parse_vertex_none (l : List Char) (hp : parseU32 (splitSp l).1 = none) :
    parse_vertex l = .error (.WrongVertexIdType (String.mk l)) := by
  simp [parse_vertex, tokens, hp]

theorem parse_vertex_some (l : List Char) (i : Nat)
    (hp : parseU32 (splitSp l).1 = some i) :
    parse_vertex l = .ok (Vertex.new i
      (if (joinSp (splitSp l).2).isEmpty then none
       else some (joinSp (splitSp l).2))) := by
  simp [parse_vertex, tokens, hp]

theorem parse_vertex_edges (l : List Char) (v : Vertex (List Char) (List Char))
    (h : parse_vertex l = .ok v) : v.edge_directions = [] := by
  cases hp : parseU32 (splitSp l).1 with
  | none =>
    rw [parse_vertex_none l hp] at h
    cases h
  | some i =>
    rw [parse_vertex_some l i hp] at h
    injection h with h2
    rw [← h2]
    rfl

theorem parse_edge_of_ids (l : List Char) (g : Graph (List Char) (List Char))
    (a b : Nat) (val : Option (List Char))
    (h : parse_edge_ids l = some (a, b, val))
    (ha : g.contains_vertex a = true) (hb : g.contains_vertex b = true) :
    parse_edge l g = .ok (a, b, val) := by
  cases hp1 : parseU32 (splitSp l).1 with
  | none => simp [parse_edge_ids, tokens, hp1] at h
  | some a1 =>
    cases hsp : (splitSp l).2 with
    | nil => simp [parse_edge_ids, tokens, hp1, hsp] at h
    | cons tok2 rest2 =>
      cases hp2 : parseU32 tok2 with
      | none => simp [parse_edge_ids, tokens, hp1, hsp, hp2] at h
      | some b1 =>
        simp only [parse_edge_ids, tokens, hp1, hsp, hp2, Option.some.injEq,
          Prod.mk.injEq] at h
        rcases h with ⟨rfl, rfl, rfl⟩
        simp [parse_edge, tokens, hp1, hsp, hp2, ha, hb]

theorem parse_edge_err_first (l : List Char) (g : Graph (List Char) (List Char))
    (a b : Nat) (val : Option (List Char))
    (h : parse_edge_ids l = some (a, b, val))
    (ha : g.contains_vertex a = false) :
    parse_edge l g = .error (.VertexNotFound a) := by
  cases hp1 : parseU32 (splitSp l).1 with
  | none => simp [parse_edge_ids, tokens, hp1] at h
  | some a1 =>
    cases hsp : (splitSp l).2 with
    | nil => simp [parse_edge_ids, tokens, hp1, hsp] at h
    | cons tok2 rest2 =>
      cases hp2 : parseU32 tok2 with
      | none => simp [parse_edge_ids, tokens, hp1, hsp, hp2] at h
      | some b1 =>
        simp only [parse_edge_ids, tokens, hp1, hsp, hp2, Option.some.injEq,
          Prod.mk.injEq] at h
        rcases h with ⟨rfl, rfl, rfl⟩
        simp [parse_edge, tokens, hp1, hsp, hp2, ha]

theorem parse_edge_err_second (l : List Char) (g : Graph (List Char) (List Char))
    (a b : Nat) (val : Option (List Char))
    (h : parse_edge_ids l = some (a, b, val))
    (ha : g.contains_vertex a = true) (hb : g.contains_vertex b = false) :
    parse_edge l g = .error (.VertexNotFound b) := by
  cases hp1 : parseU32 (splitSp l).1 with
  | none => simp [parse_edge_ids, tokens, hp1] at h
  | some a1 =>
    cases hsp : (splitSp l).2 with
    | nil => simp [parse_edge_ids, tokens, hp1, hsp] at h
    | cons tok2 rest2 =>
      cases hp2 : parseU32 tok2 with
      | none => simp [parse_edge_ids, tokens, hp1, hsp, hp2] at h
      | some b1 =>
        simp only [parse_edge_ids, tokens, hp1, hsp, hp2, Option.some.injEq,
          Prod.mk.injEq] at h
        rcases h with ⟨rfl, rfl, rfl⟩
        simp [parse_edge, tokens, hp1, hsp, hp2, ha, hb]

theorem edgeLines_append_strong (v : Vertex (List Char) (List Char)) (b : Nat)
    (val : Option (List Char)) :
    edgeLines (appendDir b val .Strong v) = edgeLines v ++ [edgeLineOut v.id b val] := by
  show (v.edge_directions ++
      ([{ to_vertex_id := b, value := val, type := .Strong }]
        : List (EdgeDirection (List Char)))).filterMap _ = _
  rw [List.filterMap_append]
  congr 1
  cases val <;> rfl

theorem edgeLines_append_weak (v : Vertex (List Char) (List Char)) (a : Nat)
    (val : Option (List Char)) :
    edgeLines (appendDir a val .Weak v) = edgeLines v := by
  show (v.edge_directions ++
      ([{ to_vertex_id := a, value := val, type := .Weak }]
        : List (EdgeDirection (List Char)))).filterMap _ = _
  rw [List.filterMap_append]
  have hid : (appendDir a val EdgeDirectionType.Weak v).id = v.id := rfl
  simp only [hid]
  have h2 : ([{ to_vertex_id := a, value := val, type := .Weak }]
      : List (EdgeDirection (List Char))).filterMap (fun e =>
        match e.type with
        | .Weak => none
        | .Strong =>
          match e.value with
          | some edge_value =>
            some (natChars v.id ++ ' ' :: (natChars e.to_vertex_id ++ ' ' :: edge_value))
          | none => some (natChars v.id ++ ' ' :: natChars e.to_vertex_id)) = [] := rfl
  rw [h2, List.append_nil]
  rfl

theorem map_modifyFirst_eq {X : Type} (l : List (Vertex VT ET)) (i : Nat)
    (f : Vertex VT ET → Vertex VT ET) (F : Vertex VT ET → X)
    (h : ∀ v, F (f v) = F v) :
    (modifyFirst l i f).map F = l.map F := by
  induction l with
  | nil => rfl
  | cons v vs ih =>
    rw [modifyFirst]
    cases hb : (v.id == i) with
    | true => simp [h v]
    | false => simp [ih]

theorem flatMap_modifyFirst_eq {X : Type} (l : List (Vertex VT ET)) (i : Nat)
    (f : Vertex VT ET → Vertex VT ET) (E : Vertex VT ET → List X)
    (h : ∀ v, E (f v) = E v) :
    (modifyFirst l i f).flatMap E = l.flatMap E := by
  induction l with
  | nil => rfl
  | cons v vs ih =>
    rw [modifyFirst]
    cases hb : (v.id == i) with
    | true => simp [h v]
    | false => simp [ih]

theorem mem_flatMap_modifyFirst_imp {X : Type} (l : List (Vertex VT ET)) (i : Nat)
    (f : Vertex VT ET → Vertex VT ET) (E : Vertex VT ET → List X) (x : X)
    (hx : x ∈ (modifyFirst l i f).flatMap E) :
    x ∈ l.flatMap E ∨ ∃ v, l.find? (fun w => w.id == i) = some v ∧ x ∈ E (f v) := by
  rcases List.mem_flatMap.mp hx with ⟨v', hv', hxE⟩
  rcases mem_modifyFirst_find? l i f v' hv' with hin | ⟨v, hfind, rfl⟩
  · exact Or.inl (List.mem_flatMap.mpr ⟨v', hin, hxE⟩)
  · exact Or.inr ⟨v, hfind, hxE⟩

theorem mem_flatMap_modifyFirst_of_mem {X : Type} (l : List (Vertex VT ET)) (i : Nat)
    (f : Vertex VT ET → Vertex VT ET) (E : Vertex VT ET → List X) (x : X)
    (hsub : ∀ v y, y ∈ E v → y ∈ E (f v))
    (hx : x ∈ l.flatMap E) : x ∈ (modifyFirst l i f).flatMap E := by
  induction l with
  | nil => simp at hx
  | cons v vs ih =>
    rw [modifyFirst]
    rw [List.flatMap_cons, List.mem_append] at hx
    cases hb : (v.id == i) with
    | true =>
      simp only [if_true]
      rw [List.flatMap_cons, List.mem_append]
      rcases hx with hx | hx
      · exact Or.inl (hsub v x hx)
      · exact Or.inr hx
    | false =>
      simp only [Bool.false_eq_true, if_false]
      rw [List.flatMap_cons, List.mem_append]
      rcases hx with hx | hx
      · exact Or.inl hx
      · exact Or.inr (ih hx)

theorem mem_flatMap_modifyFirst_of_new {X : Type} (l : List (Vertex VT ET)) (i : Nat)
    (f : Vertex VT ET → Vertex VT ET) (E : Vertex VT ET → List X) (x : X)
    (v : Vertex VT ET) (hfind : l.find? (fun w => w.id == i) = some v)
    (hx : x ∈ E (f v)) : x ∈ (modifyFirst l i f).flatMap E := by
  induction l with
  | nil => cases hfind
  | cons w ws ih =>
    rw [modifyFirst]
    rw [List.find?_cons] at hfind
    cases hb : (w.id == i) with
    | true =>
      rw [hb] at hfind
      have hwv : w = v := by injection hfind
      simp only [if_true]
      rw [List.flatMap_cons, List.mem_append]
      exact Or.inl (hwv ▸ hx)
    | false =>
      rw [hb] at hfind
      simp only [Bool.false_eq_true, if_false]
      rw [List.flatMap_cons, List.mem_append]
      exact Or.inr (ih hfind)

/-- Vertex-scanning phase of `deserialize`: canonical vertex lines are
appended one by one (each must insert successfully for the whole
deserialization to succeed), then the `#` line switches the state to edge
scanning with the graph unchanged. -/
theorem deserialize_vertex_phase (elines : List (List Char)) :
    ∀ (vlines : List (List Char)) (g0 res : Graph (List Char) (List Char)),
      (∀ l ∈ vlines, ∃ v, parse_vertex (trimChars l) = .ok v ∧ vertexLine v = l) →
      deserializeLoop g0 .Vertex (vlines ++ ['#'] :: elines) = .ok res →
      ∃ vs, deserializeLoop { g0 with vertices := g0.vertices ++ vs } .Edge elines
          = .ok res ∧
        vs.map vertexLine = vlines ∧ ∀ v ∈ vs, v.edge_directions = [] := by
  intro vlines
  induction vlines with
  | nil =>
    intro g0 res hcanon hres
    refine ⟨[], ?_, rfl, by intro v hv; cases hv⟩
    have hres2 : deserializeLoop g0 .Edge elines = .ok res := hres
    rw [List.append_nil]
    exact hres2
  | cons l ls ih =>
    intro g0 res hcanon hres
    rcases hcanon l (List.mem_cons_self _ _) with ⟨v, hpv, hvl⟩
    rw [List.cons_append] at hres
    simp only [deserializeLoop, hpv] at hres
    rcases hadd : g0.add_vertex v with ⟨r, g2⟩
    rw [hadd] at hres
    cases r with
    | error e => cases hres
    | ok u =>
      by_cases hc : g0.contains_vertex v.id = true
      · rw [(add_vertex_spec g0 v).1 hc] at hadd
        injection hadd with h1 h2
        exact Except.noConfusion h1
      · have hc' : g0.contains_vertex v.id = false := by simpa using hc
        rw [(add_vertex_spec g0 v).2 hc'] at hadd
        injection hadd with h1 h2
        rcases ih g2 res (fun l' hl' => hcanon l' (List.mem_cons_of_mem _ hl')) hres
          with ⟨vs, hloop, hmap, hempty⟩
        refine ⟨v :: vs, ?_, ?_, ?_⟩
        · have hgeq : ({ g0 with vertices := g0.vertices ++ (v :: vs) }
              : Graph (List Char) (List Char))
              = { g2 with vertices := g2.vertices ++ vs } := by
            rw [← h2]
            show ({ g0 with vertices := g0.vertices ++ (v :: vs) }
                : Graph (List Char) (List Char))
              = { g0 with vertices := (g0.vertices ++ [v]) ++ vs }
            rw [List.append_cons g0.vertices v vs]
          rw [hgeq]
          exact hloop
        · simp [hmap, hvl]
        · intro w hw
          rcases List.mem_cons.mp hw with rfl | hw'
          · exact parse_vertex_edges _ w hpv
          · exact hempty w hw'

/-- Neither half of the undirected pair `(a, b)` is stored yet. -/
def FreshPair (g : Graph (List Char) (List Char)) (a b : Nat) : Prop :=
  (∀ va, g.findVertex a = some va → ∀ d ∈ va.edge_directions, d.to_vertex_id ≠ b) ∧
  (∀ vb, g.findVertex b = some vb → ∀ d ∈ vb.edge_directions, d.to_vertex_id ≠ a)

/-- A successful undirected `add_edge` on a fresh pair: it returns `Ok`,
keeps mode and vertex lines, adds exactly the serialized edge line to the
`Strong`-line set, and adds no directions beyond the mirrored pair. -/
theorem add_edge_fresh (g : Graph (List Char) (List Char)) (a b : Nat)
    (val : Option (List Char)) (va : Vertex (List Char) (List Char))
    (hmode : g.type = .Undirected)
    (hfa : g.findVertex a = some va)
    (hcb : g.contains_vertex b = true)
    (hfresh : FreshPair g a b) :
    ∃ g2, g.add_edge a b val = (.ok (), g2) ∧
      g2.type = .Undirected ∧
      g2.vertices.map vertexLine = g.vertices.map vertexLine ∧
      (∀ x, x ∈ g2.vertices.flatMap edgeLines ↔
        (x ∈ g.vertices.flatMap edgeLines ∨ x = edgeLineOut a b val)) ∧
      (∀ x vx, g2.findVertex x = some vx → ∀ d ∈ vx.edge_directions,
        (∃ vx0, g.findVertex x = some vx0 ∧ d ∈ vx0.edge_directions) ∨
        (x = a ∧ d.to_vertex_id = b) ∨ (x = b ∧ d.to_vertex_id = a)) := by
  have hexf : ∀ d ∈ va.edge_directions, d.to_vertex_id ≠ b := hfresh.1 va hfa
  have h1 := add_edge_direction_push_eq g a b val .Strong va hfa hexf
  have hvaid : va.id = a := findVertex_id g a va hfa
  have hg1find : (g.modifyVertex a (appendDir b val .Strong)).findVertex a
      = some (appendDir b val .Strong va) := by
    rw [Graph.findVertex_modifyVertex_self g a (appendDir b val .Strong)
      (fun _ => rfl), hfa]
    rfl
  have hflat1 : ∀ x, x ∈ (g.modifyVertex a
      (appendDir b val .Strong)).vertices.flatMap edgeLines ↔
      (x ∈ g.vertices.flatMap edgeLines ∨ x = edgeLineOut a b val) := by
    intro x
    constructor
    · intro hx
      rcases mem_flatMap_modifyFirst_imp g.vertices a (appendDir b val .Strong)
        edgeLines x hx with hx | ⟨w, hw, hxE⟩
      · exact Or.inl hx
      · have hwva : w = va := by
          have hfa2 : g.vertices.find? (fun w => w.id == a) = some va := hfa
          rw [hfa2] at hw
          injection hw with hq
          exact hq.symm
        subst hwva
        rw [edgeLines_append_strong] at hxE
        rcases List.mem_append.mp hxE with hxE | hxE
        · exact Or.inl (List.mem_flatMap.mpr ⟨w, findVertex_mem g a w hfa, hxE⟩)
        · rw [hvaid] at hxE
          exact Or.inr (List.mem_singleton.mp hxE)
    · intro hx
      rcases hx with hx | hx
      · apply mem_flatMap_modifyFirst_of_mem
        · intro v y hy
          rw [edgeLines_append_strong]
          exact List.mem_append_left _ hy
        · exact hx
      · apply mem_flatMap_modifyFirst_of_new g.vertices a (appendDir b val .Strong)
          edgeLines x va hfa
        rw [edgeLines_append_strong, hvaid, hx]
        exact List.mem_append_right _ (List.mem_singleton_self _)
  have hmap1 : (g.modifyVertex a (appendDir b val .Strong)).vertices.map vertexLine
      = g.vertices.map vertexLine :=
    map_modifyFirst_eq g.vertices a (appendDir b val .Strong) vertexLine
      (fun _ => rfl)
  by_cases hab : a = b
  · subst hab
    have hnoop := add_edge_direction_noop (g.modifyVertex a (appendDir a val .Strong))
      a a val .Weak (appendDir a val .Strong va) hg1find
      ⟨{ to_vertex_id := a, value := val, type := .Strong },
        List.mem_append_right _ (List.mem_singleton_self _), rfl⟩
    refine ⟨g.modifyVertex a (appendDir a val .Strong), ?_, hmode, hmap1, hflat1, ?_⟩
    · rw [Graph.add_edge, hmode, h1]
      exact hnoop
    · intro x vx hvx d hdm
      by_cases hxa : x = a
      · subst hxa
        rw [hg1find] at hvx
        have hvxe : vx = appendDir x val .Strong va := by
          injection hvx with hq
          exact hq.symm
        rw [hvxe] at hdm
        rcases List.mem_append.mp hdm with hdm | hdm
        · exact Or.inl ⟨va, hfa, hdm⟩
        · have hde := List.mem_singleton.mp hdm
          rw [hde]
          exact Or.inr (Or.inl ⟨rfl, rfl⟩)
      · rw [Graph.findVertex_modifyVertex_ne g a x (appendDir a val .Strong)
          hxa (fun _ => rfl)] at hvx
        exact Or.inl ⟨vx, hvx, hdm⟩
  · rcases exists_findVertex_of_contains g b hcb with ⟨vb, hfb⟩
    have hvbid : vb.id = b := findVertex_id g b vb hfb
    have hg1fb : (g.modifyVertex a (appendDir b val .Strong)).findVertex b
        = some vb := by
      rw [Graph.findVertex_modifyVertex_ne g a b (appendDir b val .Strong)
        (fun h => hab h.symm) (fun _ => rfl)]
      exact hfb
    have hext : ∀ d ∈ vb.edge_directions, d.to_vertex_id ≠ a := hfresh.2 vb hfb
    have h2 := add_edge_direction_push_eq (g.modifyVertex a (appendDir b val .Strong))
      b a val .Weak vb hg1fb hext
    refine ⟨(g.modifyVertex a (appendDir b val .Strong)).modifyVertex b
      (appendDir a val .Weak), ?_, hmode, ?_, ?_, ?_⟩
    · rw [Graph.add_edge, hmode, h1]
      exact h2
    · show List.map vertexLine (modifyFirst
          (g.modifyVertex a (appendDir b val .Strong)).vertices b
          (appendDir a val .Weak)) = List.map vertexLine g.vertices
      rw [map_modifyFirst_eq _ b (appendDir a val .Weak) vertexLine (fun _ => rfl)]
      exact hmap1
    · intro x
      have hflat2 : ((g.modifyVertex a (appendDir b val .Strong)).modifyVertex b
          (appendDir a val .Weak)).vertices.flatMap edgeLines
          = (g.modifyVertex a (appendDir b val .Strong)).vertices.flatMap edgeLines :=
        flatMap_modifyFirst_eq _ b (appendDir a val .Weak) edgeLines
          (fun v => edgeLines_append_weak v a val)
      rw [hflat2]
      exact hflat1 x
    · intro x vx hvx d hdm
      by_cases hxb : x = b
      · subst hxb
        rw [Graph.findVertex_modifyVertex_self _ x (appendDir a val .Weak)
          (fun _ => rfl), hg1fb] at hvx
        have hvxe : vx = appendDir a val .Weak vb := by
          injection hvx with hq
          exact hq.symm
        rw [hvxe] at hdm
        rcases List.mem_append.mp hdm with hdm | hdm
        · exact Or.inl ⟨vb, hfb, hdm⟩
        · have hde := List.mem_singleton.mp hdm
          rw [hde]
          exact Or.inr (Or.inr ⟨rfl, rfl⟩)
      · rw [Graph.findVertex_modifyVertex_ne _ b x (appendDir a val .Weak)
          hxb (fun _ => rfl)] at hvx
        by_cases hxa : x = a
        · subst hxa
          rw [hg1find] at hvx
          have hvxe : vx = appendDir b val .Strong va := by
            injection hvx with hq
            exact hq.symm
          rw [hvxe] at hdm
          rcases List.mem_append.mp hdm with hdm | hdm
          · exact Or.inl ⟨va, hfa, hdm⟩
          · have hde := List.mem_singleton.mp hdm
            rw [hde]
            exact Or.inr (Or.inl ⟨rfl, rfl⟩)
        · rw [Graph.findVertex_modifyVertex_ne g a x (appendDir b val .Strong)
            hxa (fun _ => rfl)] at hvx
          exact Or.inl ⟨vx, hvx, hdm⟩

/-- Edge-scanning phase of `deserialize`: canonical edge lines with
pairwise-distinct unordered endpoint pairs, all fresh in the incoming
graph, are added one by one; the final `Strong`-line set is the incoming
one plus exactly the processed lines, and vertex lines are untouched. -/
theorem deserialize_edge_phase :
    ∀ (elines : List (List Char)) (g res : Graph (List Char) (List Char)),
      g.type = .Undirected →
      (∀ l ∈ elines, ∃ a b val, parse_edge_ids (trimChars l) = some (a, b, val) ∧
        edgeLineOut a b val = l) →
      (∀ l ∈ elines, ∀ a b val, parse_edge_ids (trimChars l) = some (a, b, val) →
        FreshPair g a b) →
      List.Pairwise (fun l1 l2 => ∀ a1 b1 v1 a2 b2 v2,
        parse_edge_ids (trimChars l1) = some (a1, b1, v1) →
        parse_edge_ids (trimChars l2) = some (a2, b2, v2) →
        ¬(a1 = a2 ∧ b1 = b2) ∧ ¬(a1 = b2 ∧ b1 = a2)) elines →
      deserializeLoop g .Edge elines = .ok res →
      res.vertices.map vertexLine = g.vertices.map vertexLine ∧
      ∀ l, l ∈ res.vertices.flatMap edgeLines ↔
        (l ∈ g.vertices.flatMap edgeLines ∨ l ∈ elines) := by
  intro elines
  induction elines with
  | nil =>
    intro g res hmode hcanon hfresh hpair hres
    have hgr : g = res := by
      have h0 : (Except.ok g : Except GraphError (Graph (List Char) (List Char)))
          = .ok res := hres
      injection h0
    subst hgr
    exact ⟨rfl, fun l => by simp⟩
  | cons l ls ih =>
    intro g res hmode hcanon hfresh hpair hres
    rcases hcanon l (List.mem_cons_self _ _) with ⟨a, b, val, hids, hout⟩
    cases hca : g.contains_vertex a with
    | false =>
      have hpe := parse_edge_err_first (trimChars l) g a b val hids hca
      simp only [deserializeLoop, hpe] at hres
      cases hres
    | true =>
      cases hcb : g.contains_vertex b with
      | false =>
        have hpe := parse_edge_err_second (trimChars l) g a b val hids hca hcb
        simp only [deserializeLoop, hpe] at hres
        cases hres
      | true =>
        have hpe := parse_edge_of_ids (trimChars l) g a b val hids hca hcb
        rcases exists_findVertex_of_contains g a hca with ⟨va, hfa⟩
        have hfreshl := hfresh l (List.mem_cons_self _ _) a b val hids
        rcases add_edge_fresh g a b val va hmode hfa hcb hfreshl
          with ⟨g2, hadd, hmode2, hmap2, hflat2, horigin⟩
        simp only [deserializeLoop, hpe, hadd] at hres
        rcases List.pairwise_cons.mp hpair with ⟨hheadrel, htail⟩
        have hfresh2 : ∀ l' ∈ ls, ∀ a' b' v',
            parse_edge_ids (trimChars l') = some (a', b', v') → FreshPair g2 a' b' := by
          intro l' hl' a' b' v' hids'
          have hold := hfresh l' (List.mem_cons_of_mem _ hl') a' b' v' hids'
          have hrel := hheadrel l' hl' a b val a' b' v' hids hids'
          constructor
          · intro vx hvx d hdm hcontra
            rcases horigin a' vx hvx d hdm with ⟨vx0, hvx0, hdm0⟩ | ⟨hxa, hdb⟩ | ⟨hxb, hda⟩
            · exact hold.1 vx0 hvx0 d hdm0 hcontra
            · exact hrel.1 ⟨hxa.symm, by rw [← hdb]; exact hcontra⟩
            · exact hrel.2 ⟨by rw [← hda]; exact hcontra, hxb.symm⟩
          · intro vx hvx d hdm hcontra
            rcases horigin b' vx hvx d hdm with ⟨vx0, hvx0, hdm0⟩ | ⟨hxa, hdb⟩ | ⟨hxb, hda⟩
            · exact hold.2 vx0 hvx0 d hdm0 hcontra
            · exact hrel.2 ⟨hxa.symm, by rw [← hdb]; exact hcontra⟩
            · exact hrel.1 ⟨by rw [← hda]; exact hcontra, hxb.symm⟩
        rcases ih g2 res hmode2 (fun l' hl' => hcanon l' (List.mem_cons_of_mem _ hl'))
          hfresh2 htail hres with ⟨hmapr, hflatr⟩
        constructor
        · rw [hmapr, hmap2]
        · intro x
          rw [hflatr x, hflat2 x]
          constructor
          · rintro ((hx | hx) | hx)
            · exact Or.inl hx
            · exact Or.inr (by rw [hx, hout]; exact List.mem_cons_self _ _)
            · exact Or.inr (List.mem_cons_of_mem _ hx)
          · rintro (hx | hx)
            · exact Or.inl (Or.inl hx)
            · rcases List.mem_cons.mp hx with rfl | hx'
              · exact Or.inl (Or.inr hout.symm)
              · exact Or.inr hx'

/-- Claim C2 (corrected): the round trip `deserialize` then `serialize`
preserves the document's line sets provided the document is canonical:
exactly one `#` delimiter line; every vertex line is the exact line
`serialize` would write for the vertex it parses to; every edge line is the
exact line `serialize` would write for the Strong direction it parses to;
and the unordered endpoint pairs of the edge lines are pairwise distinct.
Then deserialization succeeds only onto a graph whose vertex-line list is
exactly the document's vertex section and whose Strong-edge-line set is
exactly the document's edge section, so `serialize` reproduces the
document's line set. (Without the distinct-pair restriction the claim is
false: `roundtrip_counterexample` loses the mirrored line `2 1`.) -/
theorem roundtrip_amended (vlines elines : List (List Char))
    (g : Graph (List Char) (List Char))
    (hv : ∀ l ∈ vlines, ∃ v, parse_vertex (trimChars l) = .ok v ∧ vertexLine v = l)
    (he : ∀ l ∈ elines, ∃ a b val,
      parse_edge_ids (trimChars l) = some (a, b, val) ∧ edgeLineOut a b val = l)
    (hpair : List.Pairwise (fun l1 l2 => ∀ a1 b1 v1 a2 b2 v2,
      parse_edge_ids (trimChars l1) = some (a1, b1, v1) →
      parse_edge_ids (trimChars l2) = some (a2, b2, v2) →
      ¬(a1 = a2 ∧ b1 = b2) ∧ ¬(a1 = b2 ∧ b1 = a2)) elines)
    (hres : deserialize (vlines ++ ['#'] :: elines) = .ok g) :
    g.vertices.map vertexLine = vlines ∧
    (∀ l, l ∈ g.vertices.flatMap edgeLines ↔ l ∈ elines) ∧
    (∀ l, l ∈ g.serialize ↔ l ∈ vlines ++ ['#'] :: elines) := by
  have hres0 : deserializeLoop (Graph.new (List Char) (List Char) .Undirected)
      .Vertex (vlines ++ ['#'] :: elines) = .ok g := hres
  rcases deserialize_vertex_phase elines vlines _ g hv hres0 with ⟨vs, hloop, hmap, hempty⟩
  have hloop2 : deserializeLoop
      ({ vertices := vs, type := .Undirected } : Graph (List Char) (List Char))
      .Edge elines = .ok g := hloop
  have hfresh0 : ∀ l ∈ elines, ∀ a b val,
      parse_edge_ids (trimChars l) = some (a, b, val) →
      FreshPair { vertices := vs, type := .Undirected } a b := by
    intro l hl a b val hids
    constructor
    · intro vx hvx d hdm
      have hvm : vx ∈ vs := findVertex_mem _ a vx hvx
      rw [hempty vx hvm] at hdm
      cases hdm
    · intro vx hvx d hdm
      have hvm : vx ∈ vs := findVertex_mem _ b vx hvx
      rw [hempty vx hvm] at hdm
      cases hdm
  rcases deserialize_edge_phase elines { vertices := vs, type := .Undirected } g rfl
    he hfresh0 hpair hloop2 with ⟨hmapr, hflatr⟩
  have hmapv : g.vertices.map vertexLine = vlines := by
    rw [hmapr]
    exact hmap
  have hflatmid : ∀ x, x ∉ vs.flatMap edgeLines := by
    intro x hx
    rcases List.mem_flatMap.mp hx with ⟨v, hvm, hl⟩
    have hel : edgeLines v = [] := by
      unfold edgeLines
      rw [hempty v hvm]
      rfl
    rw [hel] at hl
    cases hl
  have hflatv : ∀ l, l ∈ g.vertices.flatMap edgeLines ↔ l ∈ elines := by
    intro l
    rw [hflatr l]
    constructor
    · rintro (hx | hx)
      · exact absurd hx (hflatmid l)
      · exact hx
    · exact fun hx => Or.inr hx
  refine ⟨hmapv, hflatv, ?_⟩
  intro l
  show l ∈ (g.vertices.map vertexLine) ++ [['#']] ++ (g.vertices.flatMap edgeLines) ↔
    l ∈ vlines ++ ['#'] :: elines
  rw [hmapv]
  simp only [List.mem_append, List.mem_cons, List.mem_singleton]
  rw [hflatv l]
  tauto

/-- The graph deserialized from the canonical document
`["1", "2 hello", "#", "1 2 x"]`. -/
def roundtripWitnessGraph : Graph (List Char) (List Char) :=
  { vertices :=
      [ Vertex.mk 1 none [EdgeDirection.mk 2 (some ['x']) EdgeDirectionType.Strong],
        Vertex.mk 2 (some "hello".toList)
          [EdgeDirection.mk 1 (some ['x']) EdgeDirectionType.Weak] ],
    type := GraphType.Undirected }

theorem roundtrip_amended_witness :
    roundtripWitnessGraph.vertices.map vertexLine
      = ["1".toList, "2 hello".toList] ∧
    (∀ l, l ∈ roundtripWitnessGraph.vertices.flatMap edgeLines ↔
      l ∈ ["1 2 x".toList]) ∧
    (∀ l, l ∈ roundtripWitnessGraph.serialize ↔
      l ∈ ["1".toList, "2 hello".toList] ++ ['#'] :: ["1 2 x".toList]) :=
  roundtrip_amended ["1".toList, "2 hello".toList] ["1 2 x".toList]
    roundtripWitnessGraph
    (by
      intro l hl
      rcases List.mem_cons.mp hl with rfl | hl
      · exact ⟨Vertex.new 1 none, rfl, rfl⟩
      rcases List.mem_cons.mp hl with rfl | hl
      · exact ⟨Vertex.new 2 (some "hello".toList), rfl, rfl⟩
      cases hl)
    (by
      intro l hl
      rcases List.mem_cons.mp hl with rfl | hl
      · exact ⟨1, 2, some ['x'], rfl, rfl⟩
      cases hl)
    (List.Pairwise.cons (fun l' hl' => absurd hl' (List.not_mem_nil _))
      List.Pairwise.nil)
    rfl

end GraphLib
